import Mathlib

/-!
Verification development for the embedded-mesh core of `fenics_ii`
(`xii/meshing/embedded_mesh.py`): the `EmbeddedMesh` extraction constructor
and the geometric resolver `build_embedding_map`.

Modelling conventions:
* Real (float) coordinates of the source are modelled exactly, over an
  arbitrary linearly ordered commutative ring `K` (instantiated at `ℤ` for
  concrete evaluations).  All norm comparisons of the source
  (`np.linalg.norm(d) / scale < tol`, `min(..., key=norm)`) are modelled with
  squared distances: for `scale > 0` one has `‖d‖/scale < tol` iff
  `tol > 0 ∧ ‖d‖² < (tol*scale)²`, and `argmin` of `‖·‖` equals `argmin`
  of `‖·‖²` (the strictly monotone square preserves minimisers and ties).
* Python exceptions are modelled with `Except`: `IndexError` for unguarded
  indexing, `ValueError` for `min`/`max` of an empty sequence, `KeyError`
  for a missing dict key, and one error kind per `assert` site
  (dimension check, coincidence tolerance, ambiguous entity intersection,
  unresolved map slots).  An exception propagates and no partial result is
  visible, exactly as in the source.
* Python `set` values are modelled as duplicate-free `List Nat` values;
  only membership, emptiness, intersection, size and `pop` on a singleton
  are used, so the (unspecified) set iteration order is irrelevant.
* The dolfin mesh API used by the source (`bounding_box_tree`,
  `topology()(d, d')`, `coordinates()`) is data of the model: a parent mesh
  carries its collision oracle and its adjacency maps as functions.
-/

namespace EmbeddedMeshVerif

/-- Error kinds of the model.  `indexError`, `valueError`, `keyError` mirror
the corresponding Python exceptions; `coincidence` is the
`assert error < tol` failure (`Found a hanging node`), `ambiguous` the
`assert len(the_entity) == 1` failure, `unresolved` the final
`assert not any(v is None ...)` failures, `dimMismatch` the entry assertion
`emesh.topology().dim() < mesh.topology().dim()`. -/
inductive EmbErr where
  | dimMismatch
  | indexError
  | valueError
  | keyError
  | coincidence
  | ambiguous
  | unresolved
deriving DecidableEq, Repr

/-- Python list/array indexing `l[i]`: raises `IndexError` out of range. -/
def pyGet {A : Type} (l : List A) (i : Nat) : Except EmbErr A :=
  match l.get? i with
  | some a => .ok a
  | none => .error .indexError

/-- Python `min(xs, key=snd)`: first minimiser of the key; `ValueError` on an
empty sequence. -/
def pyMin {A B : Type} [LinearOrder B] : List (A × B) → Except EmbErr (A × B)
  | [] => .error .valueError
  | p :: ps => .ok (ps.foldl (fun best q => if q.2 < best.2 then q else best) p)

/-- Effectful map over a list (left to right), propagating the first error. -/
def pyMapE {A B : Type} (f : A → Except EmbErr B) : List A → Except EmbErr (List B)
  | [] => .ok []
  | a :: xs => do
      let b ← f a
      let bs ← pyMapE f xs
      .ok (b :: bs)

variable {K : Type} [LinearOrderedCommRing K]

/-- Squared Euclidean distance of two coordinate vectors
(`np.linalg.norm(x - y) ** 2`). -/
def distSq (x y : List K) : K :=
  (List.zipWith (fun a b => (a - b) * (a - b)) x y).foldl (· + ·) 0

/-- `max(emesh_x.max(axis=0) - emesh_x.min(axis=0))`: the maximal bounding-box
extent of a coordinate array; `none` models numpy's `ValueError` when there is
no value to maximise over. -/
def bboxScale : List (List K) → Option K
  | [] => none
  | x :: xs =>
    let hi := xs.foldl (fun acc y => List.zipWith max acc y) x
    let lo := xs.foldl (fun acc y => List.zipWith min acc y) x
    match List.zipWith (fun a b => a - b) hi lo with
    | [] => none
    | d :: ds => some (ds.foldl max d)

/-- The coincidence check `np.linalg.norm(dx)/scale < tol` of the source, in
squared form: for the nonnegative `‖dx‖` this holds iff `scale > 0`,
`tol > 0` and `‖dx‖² < (tol*scale)²`.  (`scale ≤ 0`, i.e. `scale = 0`, gives
`inf`/`nan` in the source and the comparison is false.) -/
def coincOK (nsq scale tol : K) : Prop :=
  0 < scale ∧ 0 < tol ∧ nsq < (tol * scale) * (tol * scale)

instance (nsq scale tol : K) : Decidable (coincOK nsq scale tol) :=
  inferInstanceAs (Decidable (_ ∧ _ ∧ _))

/-- Parent mesh as consumed by `build_embedding_map`: coordinates, dimensions,
identity, the bounding-box tree (`compute_entity_collisions`) and the
adjacency maps `topology()(tdim, 0)`, `topology()(tdim, d)`,
`topology()(d, 0)` (the latter two indexed by the entity dimension `d`). -/
structure PMesh (K : Type) where
  coordinates : List (List K)
  tdim : Nat
  id : Nat
  tree : List K → List Nat
  c2v : Nat → List Nat
  c2e : Nat → Nat → List Nat
  e2v : Nat → Nat → List Nat

/-- Embedded mesh as consumed by `build_embedding_map`: coordinates,
topological dimension, the vertex lists of its cells in cell-index order,
and the optional `entity_map` attribute (the `(0, edim)` arrays of a
boundary-mesh style extraction record) together with the optional
user-set `parent_id` flag. -/
structure EMesh (K : Type) where
  coordinates : List (List K)
  tdim : Nat
  cells : List (List Nat)
  entity_map : Option (List Nat × List Nat)
  parent_id : Option Nat

/-- The working context of the resolver loop: embedded/parent coordinates,
collision oracle, the three adjacency maps specialised to the embedded
dimension, the length scale and the tolerance. -/
structure RCtx (K : Type) where
  ex : List (List K)
  mx : List (List K)
  tree : List K → List Nat
  c2v : Nat → List Nat
  c2e : Nat → List Nat
  e2v : Nat → List Nat
  scale : K
  tol : K

/-- Mutable state of the resolver loop: `vertex_map` (`entity_map[0]`),
`cells_with_vertex`, and `entity_map[edim]`. -/
structure RState where
  vmap : List (Option Nat)
  cwv : List (Option (List Nat))
  emap : List (Option Nat)

/-- Resolution of one not-yet-seen embedded vertex (the `if vertex_map[vertex]
is None` branch): collision query, nearest vertex of the *first* colliding
cell, coincidence check.  Returns the resolved parent vertex and the full
collision list. -/
def resolveFresh (C : RCtx K) (v : Nat) : Except EmbErr (Nat × List Nat) := do
  let vx ← pyGet C.ex v
  let c0 ← pyGet (C.tree vx) 0
  let pairs ← pyMapE (fun w => do
      let wx ← pyGet C.mx w
      .ok (w, distSq vx wx)) (C.c2v c0)
  let best ← pyMin pairs
  if coincOK best.2 C.scale C.tol then .ok (best.1, C.tree vx)
  else .error .coincidence

/-- The per-vertex candidate entity set
`{entity for mcell in mcells for entity in c2e(mcell) if the_vertex in
e2v(entity)}`, as a duplicate-free list. -/
def vertexEntitySet (C : RCtx K) (theV : Nat) (mcells : List Nat) : List Nat :=
  ((mcells.map (fun mc => (C.c2e mc).filter (fun e => (C.e2v e).contains theV))).flatten).dedup

/-- One vertex step of the resolver loop: either reuse the cached resolution
(`vertex_map` / `cells_with_vertex`) or resolve freshly and record it. -/
def resolveVertex (C : RCtx K) (st : RState) (v : Nat) :
    Except EmbErr (Nat × List Nat × RState) := do
  let cached ← pyGet st.vmap v
  match cached with
  | some pv =>
      match ← pyGet st.cwv v with
      | some mc => .ok (pv, mc, st)
      | none => .error .keyError
  | none =>
      let r ← resolveFresh C v
      .ok (r.1, r.2,
        { st with vmap := st.vmap.set v (some r.1), cwv := st.cwv.set v (some r.2) })

/-- The vertex loop of one cell: accumulates `the_entity`, replacing an empty
accumulator with the next vertex set (`update`) and otherwise intersecting
(`intersection_update`), exactly as in the source. -/
def processVerts (C : RCtx K) :
    List Nat → RState → List Nat → Except EmbErr (RState × List Nat)
  | [], st, acc => .ok (st, acc)
  | v :: vs, st, acc => do
      let r ← resolveVertex C st v
      let vset := vertexEntitySet C r.1 r.2.1
      let acc' := if acc.isEmpty then vset else acc.filter (fun e => vset.contains e)
      processVerts C vs r.2.2 acc'

/-- The cell loop of the resolver: process every embedded cell (with its
index), check `len(the_entity) == 1`, and record the unique entity. -/
def processCells (C : RCtx K) :
    List (Nat × List Nat) → RState → Except EmbErr RState
  | [], st => .ok st
  | (i, vs) :: cs, st => do
      let r ← processVerts C vs st []
      match r.2 with
      | [e] => processCells C cs { r.1 with emap := r.1.emap.set i (some e) }
      | _ => .error .ambiguous

/-- The context built by `build_embedding_map` for the geometric search. -/
def searchCtx (emesh : EMesh K) (mesh : PMesh K) (tol : K) : RCtx K :=
  { ex := emesh.coordinates
    mx := mesh.coordinates
    tree := mesh.tree
    c2v := mesh.c2v
    c2e := mesh.c2e emesh.tdim
    e2v := mesh.e2v emesh.tdim
    scale := (bboxScale emesh.coordinates).getD 0
    tol := tol }

/-- Standalone resolution of one embedded vertex against the parent mesh,
with the same computation as the fresh branch inside the search. -/
def resolveFreshOf (emesh : EMesh K) (mesh : PMesh K) (tol : K) (v : Nat) :
    Except EmbErr (Nat × List Nat) :=
  resolveFresh (searchCtx emesh mesh tol) v

/-- The geometric-search path of `build_embedding_map` (everything after the
extraction shortcut): length scale, the resolver loop over all cells, and the
final not-`None` checks, returning `(entity_map[0], entity_map[edim])`. -/
def build_embedding_map_search (emesh : EMesh K) (mesh : PMesh K) (tol : K) :
    Except EmbErr (List Nat × List Nat) :=
  match bboxScale emesh.coordinates with
  | none => .error .valueError
  | some _ => do
      let st0 : RState :=
        { vmap := List.replicate emesh.coordinates.length none
          cwv := List.replicate emesh.coordinates.length none
          emap := List.replicate emesh.cells.length none }
      let st ← processCells (searchCtx emesh mesh tol) emesh.cells.enum st0
      if st.vmap.any (fun o => o.isNone) then .error .unresolved
      else if st.emap.any (fun o => o.isNone) then .error .unresolved
      else .ok (st.vmap.filterMap id, st.emap.filterMap id)

/-- `build_embedding_map(emesh, mesh, tol)`: the dimension assertion, the
trusted-extraction shortcut (stored `entity_map` plus identity-checked
`parent_id`), and otherwise the geometric search. -/
def build_embedding_map (emesh : EMesh K) (mesh : PMesh K) (tol : K) :
    Except EmbErr (List Nat × List Nat) :=
  if emesh.tdim < mesh.tdim then
    match emesh.entity_map, emesh.parent_id with
    | some m, some pid =>
        if pid = mesh.id then .ok m else build_embedding_map_search emesh mesh tol
    | some _, none => build_embedding_map_search emesh mesh tol
    | none, _ => build_embedding_map_search emesh mesh tol
  else .error .dimMismatch

/-! ## The `EmbeddedMesh` extraction constructor -/

/-- Error kinds of the `EmbeddedMesh.__init__` assertions: the dimension
check `base_mesh.topology().dim() >= marking_function.dim()`, the
`tdim > 0` check (`No Embedded mesh from vertices`), and `assert markers`.
(The MPI single-partition assertion is outside the model: the model is the
single-process execution.) -/
inductive ExtErr where
  | dimMismatch
  | noVertexEntities
  | emptyMarkers
deriving DecidableEq, Repr

/-- A marker argument of `EmbeddedMesh`: either an integer label or a region
descriptor (`SubDomain` / string / lambda), the latter modelled by the entity
predicate it selects.  (The source distinguishes the three descriptor kinds
only to reach dolfin's `mark`; their common effect is painting the selected
entities.) -/
inductive Marker where
  | int (m : Nat)
  | region (pred : Nat → Bool)

/-- `is_number` of the source. -/
def markerIsInt : Marker → Bool
  | .int _ => true
  | .region _ => false

/-- The integer value of a marker (meaningful on `.int` markers only; the
all-integer branch of the source never reads it for a region). -/
def markerVal : Marker → Nat
  | .int m => m
  | .region _ => 0

/-- Modelled from dolfin's documented behaviour of `SubDomain.mark(f, m)`:
set the label of every entity selected by the region to `m`, leaving the
rest of the array unchanged. -/
def paintMark (values : List Nat) (pred : Nat → Bool) (m : Nat) : List Nat :=
  (values.enum).map (fun p => if pred p.1 then m else p.2)

/-- The marker-resolution preamble of `EmbeddedMesh.__init__` (lines 17-46):
if any marker is a region descriptor, paint it onto the marking function
with the next free integer label (starting from the maximum integer marker,
or 0 when there is none) and replace it by that label.  Returns the final
marking-function array together with the resolved integer marker list. -/
def resolveMarkers (values : List Nat) (markers : List Marker) :
    List Nat × List Nat :=
  if markers.all markerIsInt then (values, markers.map markerVal)
  else
    let numbers := markers.filterMap (fun mk => match mk with
      | .int m => some m
      | .region _ => none)
    let start := if numbers.isEmpty then 0 else numbers.foldl max 0
    let out := markers.foldl (fun acc mk =>
      match mk with
      | .int m => (acc.1, acc.2.1, acc.2.2 ++ [m])
      | .region p =>
          let nxt := acc.2.1 + 1
          (paintMark acc.1 p nxt, nxt, acc.2.2 ++ [nxt])) (values, start, [])
    (out.1, out.2.2)

/-- Base (parent) mesh as consumed by `EmbeddedMesh`: topological and
geometric dimension, identity, vertex coordinates, cell→vertex connectivity
(for the volumetric `SubMesh` path) and `entity.entities(0)` for entities of
each dimension (for the general path).  The number of entities of the marked
dimension is the length of the marking-function array. -/
structure BMesh (K : Type) where
  tdim : Nat
  gdim : Nat
  id : Nat
  coordinates : List (List K)
  cellVerts : Nat → List Nat
  entVerts : Nat → Nat → List Nat

/-- The data of a constructed embedded mesh: vertex coordinates, cells in
the new numbering, the parent entity map (`vertex_map` = new→old vertices,
`entity_map` = new cells→old entities/cells) and the inherited
marking-function array. -/
structure ExtResult (K : Type) where
  coordinates : List (List K)
  cells : List (List Nat)
  vmap : List Nat
  emap : List Nat
  marking : List Nat
deriving Repr

/-- `df.SubsetIterator(marking_function, marker)`: the entities whose label
equals `marker`, in increasing entity-index order. -/
def subsetEntities (values : List Nat) (m : Nat) : List Nat :=
  (List.range values.length).filter (fun e => values.getD e 0 = m)

/-- The running vertex registry of the general path: `new_vertices.index(v)`
with append on `ValueError`.  Returns the local index and the updated
registry. -/
def registerVertex (nv : List Nat) (v : Nat) : Nat × List Nat :=
  match nv.findIdx? (fun w => w = v) with
  | some i => (i, nv)
  | none => (nv.length, nv ++ [v])

/-- Append a position to the per-marker colour table (`defaultdict(list)`):
extend the existing key or append a fresh one. -/
def colorAdd : List (Nat × List Nat) → Nat → Nat → List (Nat × List Nat)
  | [], m, i => [(m, [i])]
  | p :: rest, m, i =>
      if p.1 = m then (p.1, p.2 ++ [i]) :: rest else p :: colorAdd rest m i

/-- State of the general extraction loop: the vertex registry
(`new_vertices`), the cells in local numbering (`new_cells`), the cell→entity
map (`cell_map`) and the colour table (`cell_colors`). -/
structure ExtState where
  newVertices : List Nat
  newCells : List (List Nat)
  cellMap : List Nat
  cellColors : List (Nat × List Nat)

/-- One vertex of one entity of the general extraction loop: look the vertex
up in the registry and append its local index to the cell. -/
def regStep (acc : List Nat × List Nat) (v : Nat) : List Nat × List Nat :=
  ((acc.1 ++ [(registerVertex acc.2 v).1]), (registerVertex acc.2 v).2)

/-- One entity of the general extraction loop: vertex lookup for each of the
entity's vertices, then record the cell, its parent entity and its colour. -/
def addEntity (base : BMesh K) (d : Nat) (st : ExtState) (m ent : Nat) :
    ExtState :=
  { newVertices := ((base.entVerts d ent).foldl regStep
      (([] : List Nat), st.newVertices)).2
    newCells := st.newCells ++
      [((base.entVerts d ent).foldl regStep (([] : List Nat), st.newVertices)).1]
    cellMap := st.cellMap ++ [ent]
    cellColors := colorAdd st.cellColors m st.newCells.length }

/-- The general-path double loop `for marker in markers: for entity in
SubsetIterator(...)`. -/
def extractLoop (base : BMesh K) (d : Nat) (values : List Nat)
    (markers : List Nat) : ExtState :=
  markers.foldl (fun st m =>
      (subsetEntities values m).foldl (fun st e => addEntity base d st m e) st)
    { newVertices := [], newCells := [], cellMap := [], cellColors := [] }

/-- The final colouring fold of the general path: start from the
all-zero array and set, for every colour-table entry `(marker, cells)`,
`f_[cells] = marker`.  (The py2 dict iteration order is unspecified in the
source; the per-marker cell lists are pairwise disjoint, so the result does
not depend on it, and the model iterates in key-insertion order.) -/
def colorsToMarking (colors : List (Nat × List Nat)) (f : List Nat) : List Nat :=
  colors.foldl (fun f p => p.2.foldl (fun f i => f.set i p.1) f) f

/-- The general extraction path (`d < tdim`, lines 98-152 of the source). -/
def generalExtract (base : BMesh K) (d : Nat) (values : List Nat)
    (markers : List Nat) : ExtResult K :=
  let st := extractLoop base d values markers
  { coordinates := st.newVertices.map (fun v => base.coordinates.getD v [])
    cells := st.newCells
    vmap := st.newVertices
    emap := st.cellMap
    marking :=
      if 1 < markers.length then
        colorsToMarking st.cellColors (List.replicate st.newCells.length 0)
      else List.replicate st.newCells.length (markers.headD 0) }

/-- The volumetric path (`d == tdim`, lines 62-95 of the source), built on
dolfin's `SubMesh`.  `SubMesh` is modelled from its documented behaviour:
it extracts the cells marked `1` in `one_cell_f` — i.e. the cells whose label
lies in the marker set — in increasing cell order (`parent_cell_indices`),
and numbers their vertices by increasing parent index
(`parent_vertex_indices`; dolfin collects them through an ordered map).
The recolouring loop looks each new cell's parent up in the per-marker sets
(`if old_cell in cells: f[new_cell] = color; break`); at most one colour can
match, so the (unspecified) py2 dict order is modelled as first match in
marker-list order. -/
def volumetricExtract (base : BMesh K) (values : List Nat)
    (markers : List Nat) : ExtResult K :=
  let parentCells := (List.range values.length).filter
      (fun c => markers.contains (values.getD c 0))
  let parentVerts := ((parentCells.map base.cellVerts).flatten.insertionSort (· ≤ ·)).dedup
  { coordinates := parentVerts.map (fun v => base.coordinates.getD v [])
    cells := parentCells.map (fun c =>
      (base.cellVerts c).map (fun v => parentVerts.findIdx (fun w => w = v)))
    vmap := parentVerts
    emap := parentCells
    marking :=
      if 1 < markers.length then
        parentCells.map (fun old =>
          match markers.find? (fun m => values.getD old 0 = m) with
          | some m => m
          | none => 0)
      else List.replicate parentCells.length (markers.headD 0) }

/-- `EmbeddedMesh(marking_function, markers)`: marker resolution (painting),
the entry assertions, then the volumetric or the general extraction path.
Returns the constructed mesh data together with the final marking-function
array of the *input* marking function (to make the mutation effect of the
painting step visible). -/
def EmbeddedMesh (base : BMesh K) (mfValues : List Nat) (d : Nat)
    (markers0 : List Marker) : Except ExtErr (ExtResult K × List Nat) :=
  if d ≤ base.tdim then
    if d = 0 then .error .noVertexEntities
    else if (resolveMarkers mfValues markers0).2.isEmpty then .error .emptyMarkers
    else if base.tdim = d then
      .ok (volumetricExtract base (resolveMarkers mfValues markers0).1
        (resolveMarkers mfValues markers0).2, (resolveMarkers mfValues markers0).1)
    else
      .ok (generalExtract base d (resolveMarkers mfValues markers0).1
        (resolveMarkers mfValues markers0).2, (resolveMarkers mfValues markers0).1)
  else .error .dimMismatch

/-! ## Specification-side definitions

Standalone descriptions of per-vertex data of the resolver loop, used to
state the claims; they repeat the fresh-resolution computation of the loop
outside of its state threading. -/

/-- The candidate entity set the resolver computes for one embedded vertex,
or `none` when resolving that vertex raises. -/
def specVertexSet (C : RCtx K) (v : Nat) : Option (List Nat) :=
  match resolveFresh C v with
  | .ok r => some (vertexEntitySet C r.1 r.2)
  | .error _ => none

/-- The per-vertex candidate sets of one cell's vertex list. -/
def specVertexSets (C : RCtx K) : List Nat → Option (List (List Nat))
  | [] => some []
  | v :: vs =>
      match specVertexSet C v, specVertexSets C vs with
      | some S, some Ss => some (S :: Ss)
      | _, _ => none

/-- The accumulator fold the source actually performs on `the_entity`:
replace an empty accumulator by the next vertex set, otherwise intersect. -/
def restartFold : List Nat → List (List Nat) → List Nat
  | acc, [] => acc
  | acc, S :: Ss =>
      restartFold (if acc.isEmpty then S else acc.filter (fun e => S.contains e)) Ss

/-- The plain intersection fold (no empty-restart). -/
def interFold : List Nat → List (List Nat) → List Nat
  | acc, [] => acc
  | acc, S :: Ss => interFold (acc.filter (fun e => S.contains e)) Ss

/-- Following the spec's words: "the intersection across all of the cell's
vertices of the per-vertex candidate entity sets" — the plain set
intersection of the per-vertex sets of a cell, with `none` when resolving
some vertex raises.  (To be compared with the restart fold the code
computes.) -/
def specCellIntersection (emesh : EMesh K) (mesh : PMesh K) (tol : K)
    (vs : List Nat) : Option (List Nat) :=
  match specVertexSets (searchCtx emesh mesh tol) vs with
  | some [] => some []
  | some (S :: Ss) => some (interFold S Ss)
  | none => none

/-- Invariant of the colour table of the general extraction loop: every
recorded position is a created cell whose parent entity carries the pair's
marker as its label; every created cell is recorded; the per-pair position
lists are pairwise disjoint; and cells and cell map have equal length. -/
def ColorsInv (values : List Nat) (st : ExtState) : Prop :=
  (∀ p ∈ st.cellColors, ∀ k ∈ p.2, k < st.newCells.length ∧
      ∃ e, st.cellMap.get? k = some e ∧ values.getD e 0 = p.1) ∧
  (∀ k, k < st.newCells.length → ∃ p ∈ st.cellColors, k ∈ p.2) ∧
  List.Pairwise (fun p q => ∀ j ∈ p.2, j ∉ q.2) st.cellColors ∧
  st.newCells.length = st.cellMap.length

/-- Invariant of the resolver state: every resolved `vertex_map` slot was
resolved by the fresh computation and its collision list is cached. -/
def StOK (C : RCtx K) (st : RState) : Prop :=
  st.cwv.length = st.vmap.length ∧
  ∀ v pv, st.vmap.get? v = some (some pv) →
    ∃ mc, resolveFresh C v = .ok (pv, mc) ∧ st.cwv.get? v = some (some mc)

/-! ## Concrete instances (inputs of counterexamples and witnesses) -/

/-- Parent mesh of the C1 counterexample. -/
def cx1pm : PMesh ℤ :=
  { coordinates := [[0, 0], [10, 10]], tdim := 2, id := 7
    tree := fun _ => [0], c2v := fun _ => [0, 1]
    c2e := fun _ _ => [0], e2v := fun _ _ => [0, 1] }

/-- Embedded mesh of the C1 counterexample: carries a stored extraction map
(`vertex_map = [1, 0]`, `entity_map = [0]`) and the matching `parent_id`
flag, but its vertex 0 at `[0,0]` is far from parent vertex 1 at
`[10,10]`. -/
def cx1em : EMesh ℤ :=
  { coordinates := [[0, 0], [3, 3]], tdim := 1, cells := [[0, 1]]
    entity_map := some ([1, 0], [0]), parent_id := some 7 }

/-- Parent mesh of the C2 counterexample: three cells, each a single parent
vertex; entity 10 is incident to cells 0 and 2 (vertices 0, 2), entity 11 to
cell 1 (vertex 1). -/
def cx2pm : PMesh ℤ :=
  { coordinates := [[0, 0], [1, 0], [0, 1]], tdim := 2, id := 0
    tree := fun x => if x = [0, 0] then [0] else if x = [1, 0] then [1] else [2]
    c2v := fun c => [c]
    c2e := fun _ c => if c = 0 then [10] else if c = 1 then [11] else [10]
    e2v := fun _ e => if e = 10 then [0, 2] else [1] }

/-- Embedded mesh of the C2 counterexample: one cell with three vertices
whose candidate sets are `{10}`, `{11}`, `{10}` — empty intersection. -/
def cx2em : EMesh ℤ :=
  { coordinates := [[0, 0], [1, 0], [0, 1]], tdim := 1, cells := [[0, 1, 2]]
    entity_map := none, parent_id := none }

/-- Parent mesh of the C3 counterexample: cell 0 carries two entities with
identical vertices (ambiguous), cell 1 has its single vertex displaced. -/
def cx3pm : PMesh ℤ :=
  { coordinates := [[0, 0], [1, 0], [2, 0], [3, 5]], tdim := 2, id := 0
    tree := fun x => if x = [0, 0] then [0] else if x = [1, 0] then [0] else [1]
    c2v := fun c => if c = 0 then [0, 1] else [3]
    c2e := fun _ c => if c = 0 then [20, 21] else [22]
    e2v := fun _ e => if e = 22 then [3] else [0, 1] }

/-- Embedded mesh of the C3 counterexample: cell 0 is ambiguous and is
processed first; vertex 3 of cell 1 violates the coincidence tolerance. -/
def cx3em : EMesh ℤ :=
  { coordinates := [[0, 0], [1, 0], [2, 0], [3, 0]], tdim := 1
    cells := [[0, 1], [2, 3]], entity_map := none, parent_id := none }

/-- Parent mesh of the C4 counterexample. -/
def cx4pm : PMesh ℤ :=
  { coordinates := [[0, 0], [1, 0]], tdim := 2, id := 1
    tree := fun _ => [0], c2v := fun _ => [0, 1]
    c2e := fun _ _ => [7], e2v := fun _ _ => [0, 1] }

/-- Embedded mesh of the C4 counterexample: vertices 0 and 1 coincide, and
its two cells both resolve to parent entity 7. -/
def cx4em : EMesh ℤ :=
  { coordinates := [[0, 0], [0, 0], [1, 0]], tdim := 1
    cells := [[0, 2], [1, 2]], entity_map := none, parent_id := none }

/-- Base mesh shared by the extraction counterexamples and witnesses:
topological dimension 2, two entities of dimension 1 over three vertices. -/
def exBase : BMesh ℤ :=
  { tdim := 2, gdim := 1, id := 0
    coordinates := [[0], [1], [2]]
    cellVerts := fun _ => []
    entVerts := fun _ e => if e = 0 then [0, 1] else [1, 2] }

/-- The extraction result of `EmbeddedMesh exBase [1,2] 1 [1, 2]`. -/
def exRes12 : ExtResult ℤ :=
  { coordinates := [[0], [1], [2]], cells := [[0, 1], [1, 2]]
    vmap := [0, 1, 2], emap := [0, 1], marking := [1, 2] }

/-- The extraction result of `EmbeddedMesh exBase [1,2] 1 [2, 1]`: the
marker listed first (2) gets the first new cell and vertex indices. -/
def exRes21 : ExtResult ℤ :=
  { coordinates := [[1], [2], [0]], cells := [[0, 1], [2, 0]]
    vmap := [1, 2, 0], emap := [1, 0], marking := [2, 1] }

/-- The extraction result of `EmbeddedMesh exBase [1,2] 1 [2]`. -/
def exRes2 : ExtResult ℤ :=
  { coordinates := [[1], [2]], cells := [[0, 1]]
    vmap := [1, 2], emap := [1], marking := [2] }

/-- Parent and embedded meshes of the witnesses of the resolver claims:
a conforming one-cell embedded mesh. -/
def wpm : PMesh ℤ :=
  { coordinates := [[0], [2]], tdim := 2, id := 3
    tree := fun _ => [0], c2v := fun _ => [0, 1]
    c2e := fun _ _ => [4], e2v := fun _ _ => [0, 1] }

/-- Embedded mesh of the resolver witnesses (conforming). -/
def wem : EMesh ℤ :=
  { coordinates := [[0], [2]], tdim := 1, cells := [[0, 1]]
    entity_map := none, parent_id := none }

/-- Embedded mesh of the C10 witness: its only vertex collides with no
parent cell. -/
def wem10 : EMesh ℤ :=
  { coordinates := [[5]], tdim := 1, cells := [[0]]
    entity_map := none, parent_id := none }

/-- Parent mesh of the C10 witness: the collision query returns nothing. -/
def wpm10 : PMesh ℤ :=
  { coordinates := [[0]], tdim := 2, id := 0
    tree := fun _ => [], c2v := fun _ => [0]
    c2e := fun _ _ => [0], e2v := fun _ _ => [0] }

/-- Embedded mesh of the C7 witness: carries a stored extraction map and the
`parent_id` flag matching `wpm`. -/
def w7em : EMesh ℤ :=
  { coordinates := [[0]], tdim := 1, cells := []
    entity_map := some ([5], [6]), parent_id := some 3 }

/-! ## Helper lemmas -/

theorem exceptBind_ok {A B : Type} {m : Except EmbErr A} {f : A → Except EmbErr B}
    {b : B} : (m >>= f) = .ok b ↔ ∃ a, m = .ok a ∧ f a = .ok b := by
  cases m with
  | ok a =>
      constructor
      · intro h
        exact ⟨a, rfl, h⟩
      · rintro ⟨a', ha, hf⟩
        cases ha
        exact hf
  | error e =>
      constructor
      · intro h
        exact absurd h (by simp [Bind.bind, Except.bind])
      · rintro ⟨a', ha, _⟩
        cases ha

theorem exceptBind_error {A B : Type} {m : Except EmbErr A} {f : A → Except EmbErr B}
    {e : EmbErr} :
    (m >>= f) = .error e ↔ m = .error e ∨ ∃ a, m = .ok a ∧ f a = .error e := by
  cases m with
  | ok a =>
      constructor
      · intro h
        exact Or.inr ⟨a, rfl, h⟩
      · rintro (h | ⟨a', ha, hf⟩)
        · cases h
        · cases ha
          exact hf
  | error e' =>
      constructor
      · intro h
        have he : e' = e := by
          simpa [Bind.bind, Except.bind] using h
        exact Or.inl (by rw [he])
      · rintro (h | ⟨a', ha, _⟩)
        · cases h
          rfl
        · cases ha

theorem pyGet_ok {A : Type} {l : List A} {i : Nat} {a : A} :
    pyGet l i = .ok a ↔ l.get? i = some a := by
  unfold pyGet
  cases h : l.get? i <;> simp

theorem pyGet_error {A : Type} {l : List A} {i : Nat} {e : EmbErr}
    (h : pyGet l i = .error e) : e = .indexError ∧ l.get? i = none := by
  unfold pyGet at h
  cases hg : l.get? i <;> rw [hg] at h <;> cases h <;> simp

theorem pyMin_mem {A B : Type} [LinearOrder B] {l : List (A × B)} {p : A × B}
    (h : pyMin l = .ok p) : p ∈ l := by
  cases l with
  | nil => cases h
  | cons q qs =>
      unfold pyMin at h
      cases h
      have : ∀ (qs : List (A × B)) (b : A × B),
          (qs.foldl (fun best q' => if q'.2 < best.2 then q' else best) b) = b ∨
          (qs.foldl (fun best q' => if q'.2 < best.2 then q' else best) b) ∈ qs := by
        intro qs
        induction qs with
        | nil => intro b; exact Or.inl rfl
        | cons r rs ih =>
            intro b
            rw [List.foldl_cons]
            rcases ih (if r.2 < b.2 then r else b) with h' | h'
            · rw [h']
              by_cases hc : r.2 < b.2
              · rw [if_pos hc]
                exact Or.inr (List.mem_cons_self _ _)
              · rw [if_neg hc]
                exact Or.inl rfl
            · exact Or.inr (List.mem_cons_of_mem _ h')
      rcases this qs q with h' | h'
      · rw [h']; exact List.mem_cons_self _ _
      · exact List.mem_cons_of_mem _ h'

theorem pyMapE_mem {A B : Type} {f : A → Except EmbErr B} {l : List A}
    {ys : List B} (h : pyMapE f l = .ok ys) :
    ∀ y ∈ ys, ∃ x ∈ l, f x = .ok y := by
  induction l generalizing ys with
  | nil =>
      cases h
      intro y hy
      cases hy
  | cons a xs ih =>
      unfold pyMapE at h
      rw [exceptBind_ok] at h
      obtain ⟨b, hb, h⟩ := h
      rw [exceptBind_ok] at h
      obtain ⟨bs, hbs, h⟩ := h
      cases h
      intro y hy
      rcases List.mem_cons.mp hy with h' | h'
      · exact ⟨a, List.mem_cons_self _ _, h' ▸ hb⟩
      · obtain ⟨x, hx, hfx⟩ := ih hbs y h'
        exact ⟨x, List.mem_cons_of_mem _ hx, hfx⟩

/-- Success of a fresh vertex resolution: the embedded coordinate exists,
the returned collision list is the tree query, the chosen parent vertex
exists and its (squared) distance passes the coincidence check. -/
theorem resolveFresh_ok {C : RCtx K} {v pv : Nat} {mc : List Nat}
    (h : resolveFresh C v = .ok (pv, mc)) :
    ∃ vx px, C.ex.get? v = some vx ∧ mc = C.tree vx ∧
      C.mx.get? pv = some px ∧ coincOK (distSq vx px) C.scale C.tol := by
  unfold resolveFresh at h
  rw [exceptBind_ok] at h
  obtain ⟨vx, hvx, h⟩ := h
  rw [exceptBind_ok] at h
  obtain ⟨c0, hc0, h⟩ := h
  rw [exceptBind_ok] at h
  obtain ⟨pairs, hpairs, h⟩ := h
  rw [exceptBind_ok] at h
  obtain ⟨best, hbest, h⟩ := h
  by_cases hok : coincOK best.2 C.scale C.tol
  · rw [if_pos hok] at h
    cases h
    obtain ⟨w, _, hw⟩ := pyMapE_mem hpairs best (pyMin_mem hbest)
    rw [exceptBind_ok] at hw
    obtain ⟨wx, hwx, hw⟩ := hw
    cases hw
    exact ⟨vx, wx, pyGet_ok.mp hvx, rfl, pyGet_ok.mp hwx, hok⟩
  · rw [if_neg hok] at h
    cases h

/-- The only error the fresh resolution can raise besides indexing and
empty-sequence errors is the coincidence failure; conversely a coincidence
error can only come from the final check. -/
theorem resolveVertex_error_coincidence {C : RCtx K} {st : RState} {v : Nat}
    (h : resolveVertex C st v = .error .coincidence) :
    v < st.vmap.length ∧ resolveFresh C v = .error .coincidence := by
  unfold resolveVertex at h
  rw [exceptBind_error] at h
  rcases h with h | ⟨cached, hc, h⟩
  · exact absurd (pyGet_error h).1 (by simp)
  · have hlt : v < st.vmap.length := by
      have := pyGet_ok.mp hc
      rw [List.get?_eq_some] at this
      exact this.1
    cases cached with
    | some pv =>
        rw [exceptBind_error] at h
        rcases h with h | ⟨o, _, h⟩
        · exact absurd (pyGet_error h).1 (by simp)
        · cases o <;> simp_all
    | none =>
        rw [exceptBind_error] at h
        rcases h with h | ⟨r, _, h⟩
        · exact ⟨hlt, h⟩
        · cases h

theorem resolveVertex_length {C : RCtx K} {st : RState} {v pv : Nat}
    {mc : List Nat} {st' : RState}
    (h : resolveVertex C st v = .ok (pv, mc, st')) :
    st'.vmap.length = st.vmap.length := by
  unfold resolveVertex at h
  rw [exceptBind_ok] at h
  obtain ⟨cached, _, h⟩ := h
  cases cached with
  | some pv0 =>
      rw [exceptBind_ok] at h
      obtain ⟨o, _, h⟩ := h
      cases o with
      | some mc0 => cases h; rfl
      | none => cases h
  | none =>
      rw [exceptBind_ok] at h
      obtain ⟨r, _, h⟩ := h
      cases h
      exact List.length_set _ _ _

theorem get?_set_self {A : Type} {l : List A} {i : Nat} {a : A}
    (h : i < l.length) : (l.set i a).get? i = some a := by
  rw [List.get?_eq_getElem?, List.getElem?_set_self', List.getElem?_eq_getElem h]
  rfl

theorem get?_set_other {A : Type} {l : List A} {i j : Nat} {a : A}
    (h : i ≠ j) : (l.set i a).get? j = l.get? j := by
  rw [List.get?_eq_getElem?, List.get?_eq_getElem?, List.getElem?_set_ne h]

/-- One vertex step under the state invariant: the returned resolution is
the fresh (standalone) one, the invariant is preserved, resolved slots are
preserved, and the vertex's slot now holds its resolution. -/
theorem resolveVertex_ok {C : RCtx K} {st : RState} {v pv : Nat}
    {mc : List Nat} {st' : RState} (hst : StOK C st)
    (h : resolveVertex C st v = .ok (pv, mc, st')) :
    resolveFresh C v = .ok (pv, mc) ∧ StOK C st' ∧
    st'.vmap.length = st.vmap.length ∧ st'.emap = st.emap ∧
    (∀ w pw, st.vmap.get? w = some (some pw) → st'.vmap.get? w = some (some pw)) ∧
    st'.vmap.get? v = some (some pv) := by
  unfold resolveVertex at h
  rw [exceptBind_ok] at h
  obtain ⟨cached, hc, h⟩ := h
  have hcg := pyGet_ok.mp hc
  have hlt : v < st.vmap.length := (List.get?_eq_some.mp hcg).1
  cases cached with
  | some pv1 =>
      rw [exceptBind_ok] at h
      obtain ⟨o, ho, h⟩ := h
      cases o with
      | some mc1 =>
          cases h
          obtain ⟨mc', hfresh, hcwv⟩ := hst.2 v pv hcg
          have hmm : mc' = mc := by
            have := hcwv.symm.trans (pyGet_ok.mp ho)
            simpa using this
          rw [hmm] at hfresh
          exact ⟨hfresh, hst, rfl, rfl, fun w pw hw => hw, hcg⟩
      | none => cases h
  | none =>
      rw [exceptBind_ok] at h
      obtain ⟨r, hr, h⟩ := h
      cases h
      have hfresh : resolveFresh C v = .ok (r.1, r.2) := by
        rw [hr]
      have hltc : v < st.cwv.length := by rw [hst.1]; exact hlt
      refine ⟨hfresh, ⟨?_, ?_⟩, List.length_set _ _ _, rfl, ?_, ?_⟩
      · simp only [List.length_set, hst.1]
      · intro w pw hw
        by_cases hwv : v = w
        · rw [← hwv] at hw ⊢
          rw [get?_set_self hlt] at hw
          have hpw : pw = r.1 := by simpa using hw.symm
          rw [hpw]
          exact ⟨r.2, hfresh, by rw [get?_set_self hltc]⟩
        · rw [get?_set_other hwv] at hw
          obtain ⟨mc', hf, hcw⟩ := hst.2 w pw hw
          exact ⟨mc', hf, by rw [get?_set_other hwv]; exact hcw⟩
      · intro w pw hw
        by_cases hwv : v = w
        · rw [← hwv, hcg] at hw
          cases hw
        · rw [get?_set_other hwv]
          exact hw
      · rw [get?_set_self hlt]

/-- The per-cell vertex loop under the invariant: the invariant and resolved
slots are preserved, and the final accumulator is the restart fold of the
standalone per-vertex candidate sets. -/
theorem processVerts_ok {C : RCtx K} {vs : List Nat} {st : RState}
    {acc acc' : List Nat} {st' : RState} (hst : StOK C st)
    (h : processVerts C vs st acc = .ok (st', acc')) :
    StOK C st' ∧ st'.vmap.length = st.vmap.length ∧ st'.emap = st.emap ∧
    (∀ w pw, st.vmap.get? w = some (some pw) → st'.vmap.get? w = some (some pw)) ∧
    ∃ Ss, specVertexSets C vs = some Ss ∧ acc' = restartFold acc Ss := by
  induction vs generalizing st acc with
  | nil =>
      cases h
      exact ⟨hst, rfl, rfl, fun w pw hw => hw, [], rfl, rfl⟩
  | cons v vs ih =>
      unfold processVerts at h
      rw [exceptBind_ok] at h
      obtain ⟨r, hr, h⟩ := h
      obtain ⟨hfresh, hst1, hlen1, hemap1, hmono1, _⟩ := resolveVertex_ok hst hr
      obtain ⟨hst2, hlen2, hemap2, hmono2, Ss, hSs, hacc⟩ := ih hst1 h
      refine ⟨hst2, by rw [hlen2, hlen1], by rw [hemap2, hemap1],
        fun w pw hw => hmono2 w pw (hmono1 w pw hw),
        vertexEntitySet C r.1 r.2.1 :: Ss, ?_, hacc⟩
      unfold specVertexSets specVertexSet
      have : resolveFresh C v = .ok (r.1, r.2.1) := by
        rw [hfresh]
      rw [this, hSs]

/-- A coincidence error coming out of the vertex loop pinpoints a vertex
whose fresh resolution violates the tolerance. -/
theorem processVerts_coincidence {C : RCtx K} {vs : List Nat} {st : RState}
    {acc : List Nat} (h : processVerts C vs st acc = .error .coincidence) :
    ∃ v, v < st.vmap.length ∧ resolveFresh C v = .error .coincidence := by
  induction vs generalizing st acc with
  | nil => cases h
  | cons v vs ih =>
      unfold processVerts at h
      rw [exceptBind_error] at h
      rcases h with h | ⟨r, hr, h⟩
      · obtain ⟨hlt, hf⟩ := resolveVertex_error_coincidence h
        exact ⟨v, hlt, hf⟩
      · obtain ⟨w, hlt, hf⟩ := ih h
        exact ⟨w, by rw [← resolveVertex_length hr]; exact hlt, hf⟩

/-- The cell loop under the invariant: every processed cell's restart fold
is a singleton recorded in its `entity_map` slot (for distinct cell
indices), untouched slots are preserved, and the invariant is maintained. -/
theorem processCells_ok {C : RCtx K} {cs : List (Nat × List Nat)}
    {st st' : RState} (hst : StOK C st) (h : processCells C cs st = .ok st') :
    StOK C st' ∧ st'.vmap.length = st.vmap.length ∧
    st'.emap.length = st.emap.length ∧
    (∀ w pw, st.vmap.get? w = some (some pw) → st'.vmap.get? w = some (some pw)) ∧
    (∀ j, j ∉ cs.map Prod.fst → st'.emap.get? j = st.emap.get? j) ∧
    ((cs.map Prod.fst).Nodup →
      ∀ i vs, (i, vs) ∈ cs → i < st.emap.length →
        ∃ Ss e, specVertexSets C vs = some Ss ∧ restartFold [] Ss = [e] ∧
          st'.emap.get? i = some (some e)) := by
  induction cs generalizing st with
  | nil =>
      cases h
      exact ⟨hst, rfl, rfl, fun w pw hw => hw, fun j _ => rfl,
        fun _ i vs hm => absurd hm (List.not_mem_nil _)⟩
  | cons c cs ih =>
      obtain ⟨i0, vs0⟩ := c
      unfold processCells at h
      rw [exceptBind_ok] at h
      obtain ⟨r, hr, h⟩ := h
      obtain ⟨hst1, hlen1, hemap1, hmono1, Ss0, hSs0, hacc0⟩ := processVerts_ok hst hr
      cases hae : r.2 with
      | nil => rw [hae] at h; cases h
      | cons e0 es =>
          cases es with
          | cons _ _ => rw [hae] at h; cases h
          | nil =>
              rw [hae] at h
              have hst2 : StOK C { r.1 with emap := r.1.emap.set i0 (some e0) } := hst1
              obtain ⟨hstF, hlenF, hlenEF, hmonoF, huntF, hcellF⟩ := ih hst2 h
              have hlenE1 : r.1.emap.length = st.emap.length := by rw [hemap1]
              refine ⟨hstF, by rw [hlenF]; exact hlen1,
                by rw [hlenEF]; simp [List.length_set, hlenE1],
                fun w pw hw => hmonoF w pw (hmono1 w pw hw), ?_, ?_⟩
              · intro j hj
                have hj0 : i0 ≠ j := by
                  intro hh
                  exact hj (by rw [← hh]; exact List.mem_cons_self _ _)
                have hjc : j ∉ cs.map Prod.fst := by
                  intro hh
                  exact hj (List.mem_cons_of_mem _ hh)
                rw [huntF j hjc]
                show (r.1.emap.set i0 (some e0)).get? j = st.emap.get? j
                rw [get?_set_other hj0, hemap1]
              · intro hnd i vs hm hi
                have hnd' : (cs.map Prod.fst).Nodup := (List.nodup_cons.mp
                  (by simpa using hnd)).2
                have hi0nd : i0 ∉ cs.map Prod.fst := (List.nodup_cons.mp
                  (by simpa using hnd)).1
                rcases List.mem_cons.mp hm with hh | hh
                · cases hh
                  refine ⟨Ss0, e0, hSs0, by rw [← hacc0, hae], ?_⟩
                  rw [huntF i0 hi0nd]
                  have hilt : i0 < r.1.emap.length := by rw [hlenE1]; exact hi
                  show (r.1.emap.set i0 (some e0)).get? i0 = some (some e0)
                  rw [get?_set_self hilt]
                · exact hcellF hnd' i vs hh
                    (by simp only [List.length_set]; rw [hlenE1]; exact hi)

theorem processVerts_length {C : RCtx K} {vs : List Nat} {st : RState}
    {acc acc' : List Nat} {st' : RState}
    (h : processVerts C vs st acc = .ok (st', acc')) :
    st'.vmap.length = st.vmap.length := by
  induction vs generalizing st acc with
  | nil => cases h; rfl
  | cons v vs ih =>
      unfold processVerts at h
      rw [exceptBind_ok] at h
      obtain ⟨r, hr, h⟩ := h
      rw [ih h, resolveVertex_length hr]

theorem processCells_coincidence {C : RCtx K} {cs : List (Nat × List Nat)}
    {st : RState} (h : processCells C cs st = .error .coincidence) :
    ∃ v, v < st.vmap.length ∧ resolveFresh C v = .error .coincidence := by
  induction cs generalizing st with
  | nil => cases h
  | cons c cs ih =>
      obtain ⟨i0, vs0⟩ := c
      unfold processCells at h
      rw [exceptBind_error] at h
      rcases h with h | ⟨r, hr, h⟩
      · exact processVerts_coincidence h
      · cases hae : r.2 with
        | nil =>
            rw [hae] at h
            cases h
        | cons e0 es =>
            cases es with
            | cons _ _ =>
                rw [hae] at h
                cases h
            | nil =>
                rw [hae] at h
                obtain ⟨v, hlt, hf⟩ := ih h
                refine ⟨v, ?_, hf⟩
                have := processVerts_length hr
                simp only at hlt
                rw [this] at hlt
                exact hlt

/-- The initial resolver state satisfies the invariant. -/
theorem StOK_init (C : RCtx K) (n : Nat) (e : List (Option Nat)) :
    StOK C { vmap := List.replicate n none, cwv := List.replicate n none
             emap := e } := by
  refine ⟨by simp, ?_⟩
  intro v pv hv
  rw [List.get?_eq_getElem?] at hv
  simp only [List.getElem?_replicate] at hv
  by_cases hlt : v < n
  · rw [if_pos hlt] at hv
    simp at hv
  · rw [if_neg hlt] at hv
    cases hv

theorem filterMap_id_get? {A : Type} :
    ∀ (l : List (Option A)), (∀ o ∈ l, o ≠ none) →
      ∀ k, (l.filterMap id).get? k = (l.get? k).bind id := by
  intro l
  induction l with
  | nil =>
      intro _ k
      rfl
  | cons o l ih =>
      intro hall k
      cases o with
      | none => exact absurd rfl (hall none (List.mem_cons_self _ _))
      | some a =>
          rw [List.filterMap_cons_some (rfl : id (some a) = some a)]
          cases k with
          | zero => rfl
          | succ k =>
              exact ih (fun o ho => hall o (List.mem_cons_of_mem _ ho)) k

theorem all_resolved {A : Type} {l : List (Option A)}
    (h : (l.any fun o => o.isNone) = false) :
    ∀ o ∈ l, o ≠ none := by
  intro o ho hn
  have : l.any (fun o => o.isNone) = true :=
    List.any_eq_true.mpr ⟨o, ho, by rw [hn]; rfl⟩
  rw [h] at this
  cases this

/-- Soundness of the geometric search: on success, every embedded vertex is
resolved by the standalone fresh computation, and every cell's restart fold
is the singleton recorded in the entity map. -/
theorem search_ok {em : EMesh K} {pm : PMesh K} {tol : K} {V E : List Nat}
    (h : build_embedding_map_search em pm tol = .ok (V, E)) :
    (∀ v, v < em.coordinates.length →
       ∃ pv mc, resolveFreshOf em pm tol v = .ok (pv, mc) ∧ V.get? v = some pv) ∧
    (∀ i vs, em.cells.get? i = some vs →
       ∃ Ss e, specVertexSets (searchCtx em pm tol) vs = some Ss ∧
         restartFold [] Ss = [e] ∧ E.get? i = some e) := by
  unfold build_embedding_map_search at h
  split at h
  · cases h
  · rw [exceptBind_ok] at h
    obtain ⟨st, hpc, h⟩ := h
    obtain ⟨hstF, hlenV, hlenE, _, _, hcells⟩ :=
      processCells_ok (StOK_init (searchCtx em pm tol) em.coordinates.length
        (List.replicate em.cells.length none)) hpc
    cases hA : st.vmap.any (fun o => o.isNone) with
    | true =>
        rw [hA] at h
        simp at h
    | false =>
        rw [hA] at h
        cases hB : st.emap.any (fun o => o.isNone) with
        | true =>
            rw [hB] at h
            simp at h
        | false =>
            rw [hB] at h
            simp only [Bool.false_eq_true, if_false] at h
            cases h
            constructor
            · intro v hv
              have hvlt : v < st.vmap.length := by
                rw [hlenV]
                simpa using hv
              obtain ⟨o, ho⟩ : ∃ o, st.vmap.get? v = some o :=
                ⟨_, List.get?_eq_some.mpr ⟨hvlt, rfl⟩⟩
              cases o with
              | none => exact absurd ho (fun hh =>
                  all_resolved hA none (List.get?_mem hh) rfl)
              | some pv =>
                  obtain ⟨mc, hfresh, _⟩ := hstF.2 v pv ho
                  refine ⟨pv, mc, hfresh, ?_⟩
                  rw [filterMap_id_get? st.vmap (all_resolved hA) v, ho]
                  rfl
            · intro i vs hcell
              have hmem : (i, vs) ∈ em.cells.enum := by
                rw [List.mem_enum_iff_getElem?]
                rw [← List.get?_eq_getElem?]
                exact hcell
              have hnd : (em.cells.enum.map Prod.fst).Nodup := by
                rw [List.enum_map_fst]
                exact List.nodup_range _
              have hilt : i < em.cells.length :=
                (List.get?_eq_some.mp hcell).1
              obtain ⟨Ss, e, hSs, hfold, hemap⟩ :=
                hcells hnd i vs hmem (by simpa using hilt)
              refine ⟨Ss, e, hSs, hfold, ?_⟩
              rw [filterMap_id_get? st.emap (all_resolved hB) i, hemap]
              rfl

/-- A coincidence error of the search pinpoints an embedded vertex whose
standalone fresh resolution violates the tolerance. -/
theorem search_coincidence {em : EMesh K} {pm : PMesh K} {tol : K}
    (h : build_embedding_map_search em pm tol = .error .coincidence) :
    ∃ v, v < em.coordinates.length ∧
      resolveFreshOf em pm tol v = .error .coincidence := by
  unfold build_embedding_map_search at h
  split at h
  · simp at h
  · rw [exceptBind_error] at h
    rcases h with h | ⟨st, _, h⟩
    · obtain ⟨v, hlt, hf⟩ := processCells_coincidence h
      refine ⟨v, ?_, hf⟩
      simpa using hlt
    · cases hA : st.vmap.any (fun o => o.isNone) with
      | true =>
          rw [hA] at h
          simp at h
      | false =>
          rw [hA] at h
          cases hB : st.emap.any (fun o => o.isNone) with
          | true =>
              rw [hB] at h
              simp at h
          | false =>
              rw [hB] at h
              simp at h

theorem restartFold_eq_interFold {x : Nat} :
    ∀ (Ss : List (List Nat)) (acc : List Nat), x ∈ acc → (∀ S ∈ Ss, x ∈ S) →
      restartFold acc Ss = interFold acc Ss := by
  intro Ss
  induction Ss with
  | nil => intro acc _ _; rfl
  | cons S Ss ih =>
      intro acc hx hall
      have hne : acc.isEmpty = false := by
        cases hacc : acc.isEmpty
        · rfl
        · rw [List.isEmpty_iff] at hacc
          rw [hacc] at hx
          cases hx
      show restartFold (if acc.isEmpty then S else acc.filter (fun e => S.contains e)) Ss =
        interFold (acc.filter (fun e => S.contains e)) Ss
      rw [hne]
      simp only [Bool.false_eq_true, if_false]
      refine ih _ ?_ (fun S' hS' => hall S' (List.mem_cons_of_mem _ hS'))
      rw [List.mem_filter]
      exact ⟨hx, List.elem_iff.mpr (hall S (List.mem_cons_self _ _))⟩

theorem interFold_subset {x : Nat} :
    ∀ (Ss : List (List Nat)) (acc : List Nat), x ∈ interFold acc Ss →
      x ∈ acc ∧ ∀ S ∈ Ss, x ∈ S := by
  intro Ss
  induction Ss with
  | nil =>
      intro acc hx
      exact ⟨hx, fun S hS => absurd hS (List.not_mem_nil _)⟩
  | cons S Ss ih =>
      intro acc hx
      obtain ⟨hmem, hall⟩ := ih _ hx
      rw [List.mem_filter] at hmem
      refine ⟨hmem.1, ?_⟩
      intro S' hS'
      rcases List.mem_cons.mp hS' with hh | hh
      · rw [hh]
        exact List.elem_iff.mp hmem.2
      · exact hall S' hh

/-! ## Claim theorems -/

/-- C1, counterexample.  The claim "whenever `build_embedding_map` returns a
map without raising, every embedded vertex satisfies the round-trip bound
`‖parent.coord(vertex_map[v]) − embedded.coord(v)‖ / scale < tol`" is false
as stated: through the trusted-extraction shortcut the function returns the
stored map unchecked.  Here it returns `vertex_map = [1, 0]` although
embedded vertex 0 at `[0,0]` is at squared distance 200 from parent vertex 1
at `[10,10]`, far beyond `tol * scale` with scale 3 and tol 1. -/
theorem C1_counterexample :
    build_embedding_map cx1em cx1pm 1 = .ok ([1, 0], [0]) ∧
    bboxScale cx1em.coordinates = some 3 ∧
    ¬ coincOK (distSq ([0, 0] : List ℤ) [10, 10]) 3 1 :=
  ⟨rfl, rfl, by decide⟩

/-- C1, amended.  When `build_embedding_map` resolves the map by geometric
search (the shortcut does not fire), the round-trip property holds: on
success, every embedded vertex `v` with coordinate `x` is mapped to a parent
vertex whose coordinate `px` satisfies the relative coincidence bound
`‖x − px‖ / scale < tol` (stated in squared form by `coincOK`), where
`scale` is the maximal extent of the embedded mesh's bounding box. -/
theorem C1_roundtrip_of_search {em : EMesh K} {pm : PMesh K}
    {tol scale : K} {V E : List Nat}
    (hs : bboxScale em.coordinates = some scale)
    (h : build_embedding_map_search em pm tol = .ok (V, E)) :
    ∀ v x, em.coordinates.get? v = some x →
      ∃ pv px, V.get? v = some pv ∧ pm.coordinates.get? pv = some px ∧
        coincOK (distSq x px) scale tol := by
  intro v x hx
  have hv : v < em.coordinates.length := (List.get?_eq_some.mp hx).1
  obtain ⟨pv, mc, hfresh, hV⟩ := (search_ok h).1 v hv
  obtain ⟨vx, px, hvx, _, hpx, hcoinc⟩ := resolveFresh_ok hfresh
  have hxx : vx = x := by
    have : some vx = some x := by rw [← hvx, ← hx]; rfl
    simpa using this
  rw [hxx] at hcoinc
  have hscale : (searchCtx em pm tol).scale = scale := by
    show (bboxScale em.coordinates).getD 0 = scale
    rw [hs]
    rfl
  rw [hscale] at hcoinc
  exact ⟨pv, px, hV, hpx, hcoinc⟩

/-- C1, witness for the amended theorem: a conforming one-cell embedded mesh
resolves with the round-trip bound at vertex 0. -/
theorem C1_roundtrip_witness :
    ∃ pv px, ([0, 1] : List Nat).get? 0 = some pv ∧
      wpm.coordinates.get? pv = some px ∧
      coincOK (distSq ([0] : List ℤ) px) 2 1 :=
  @C1_roundtrip_of_search ℤ _ wem wpm 1 2 [0, 1] [4]
    (rfl : bboxScale wem.coordinates = some 2)
    (rfl : build_embedding_map_search wem wpm 1 = Except.ok ([0, 1], [4]))
    0 [0] rfl

/-- C2, counterexample.  The claim that an empty per-vertex candidate
intersection makes resolution fail is false: the accumulator restarts from
the next vertex set whenever it empties, so with per-vertex sets `{10}`,
`{11}`, `{10}` (plain intersection empty) the search succeeds and silently
records entity 10. -/
theorem C2_counterexample :
    build_embedding_map_search cx2em cx2pm 1 = .ok ([0, 1, 2], [10]) ∧
    specCellIntersection cx2em cx2pm 1 [0, 1, 2] = some [] :=
  ⟨rfl, rfl⟩

/-- C2, amended.  For every processed cell whose per-vertex candidate sets
have a *nonempty* plain intersection, that intersection is exactly one
entity, and it is the entity recorded for the cell; in particular more than
one common entity makes resolution fail.  (With an empty intersection the
code may instead silently pick a candidate, as the counterexample shows.) -/
theorem C2_unique_entity {em : EMesh K} {pm : PMesh K} {tol : K}
    {V E : List Nat} (h : build_embedding_map_search em pm tol = .ok (V, E)) :
    ∀ i vs S, em.cells.get? i = some vs →
      specCellIntersection em pm tol vs = some S → S ≠ [] →
      ∃ e, E.get? i = some e ∧ S = [e] := by
  intro i vs S hcell hspec hne
  obtain ⟨Ss, e, hSs, hfold, hE⟩ := (search_ok h).2 i vs hcell
  unfold specCellIntersection at hspec
  rw [hSs] at hspec
  cases Ss with
  | nil =>
      cases hfold
  | cons S1 Ss' =>
      have hS : S = interFold S1 Ss' := by
        have h2 : some (interFold S1 Ss') = some S := hspec
        exact (Option.some.inj h2).symm
      obtain ⟨y, hy⟩ := List.exists_mem_of_ne_nil S hne
      rw [hS] at hy
      obtain ⟨hy1, hyall⟩ := interFold_subset Ss' S1 hy
      have hrw : restartFold [] (S1 :: Ss') = interFold S1 Ss' := by
        show restartFold (if ([] : List Nat).isEmpty then S1 else _) Ss' = _
        simp only [List.isEmpty_nil, if_true]
        exact restartFold_eq_interFold Ss' S1 hy1 hyall
      refine ⟨e, hE, ?_⟩
      rw [hS, ← hrw, hfold]

/-- C2, witness for the amended theorem: on a conforming input the unique
common entity 4 is recorded. -/
theorem C2_unique_entity_witness :
    ∃ e, ([4] : List Nat).get? 0 = some e ∧ ([4] : List Nat) = [e] :=
  @C2_unique_entity ℤ _ wem wpm 1 [0, 1] [4]
    (rfl : build_embedding_map_search wem wpm 1 = Except.ok ([0, 1], [4]))
    0 [0, 1] [4] rfl
    (rfl : specCellIntersection wem wpm 1 [0, 1] = some [4])
    (by decide)

/-- C3, counterexample.  The "if and only if" of the claim fails: embedded
vertex 3 of `cx3em` violates the coincidence tolerance (its standalone
resolution raises the coincidence error), yet `build_embedding_map` raises
the *ambiguity* error instead, because cell 0's ambiguous intersection is
detected before vertex 3 is ever examined. -/
theorem C3_counterexample :
    build_embedding_map_search cx3em cx3pm 1 = .error .ambiguous ∧
    resolveFreshOf cx3em cx3pm 1 3 = .error .coincidence ∧
    EmbErr.ambiguous ≠ EmbErr.coincidence :=
  ⟨rfl, rfl, by decide⟩

/-- C3, amended.  A coincidence error is raised *only if* some embedded
vertex's nearest-vertex distance violates the tolerance (the standalone
resolution of that vertex raises the coincidence error); and whenever a map
is returned, every embedded vertex resolves within tolerance — a displaced
vertex never yields a silently produced map.  The converse direction of the
original claim fails because a different error may preempt the coincidence
check. -/
theorem C3_coincidence_characterisation {em : EMesh K} {pm : PMesh K}
    {tol : K} :
    (build_embedding_map_search em pm tol = .error .coincidence →
      ∃ v, v < em.coordinates.length ∧
        resolveFreshOf em pm tol v = .error .coincidence) ∧
    (∀ V E, build_embedding_map_search em pm tol = .ok (V, E) →
      ∀ v, v < em.coordinates.length →
        ∃ pv mc, resolveFreshOf em pm tol v = .ok (pv, mc)) := by
  constructor
  · exact search_coincidence
  · intro V E h v hv
    obtain ⟨pv, mc, hfresh, _⟩ := (search_ok h).1 v hv
    exact ⟨pv, mc, hfresh⟩

/-- C3, witness: on a conforming input the returned map has every vertex
resolved within tolerance. -/
theorem C3_coincidence_witness :
    ∃ pv mc, resolveFreshOf wem wpm 1 0 = .ok (pv, mc) :=
  (@C3_coincidence_characterisation ℤ _ wem wpm 1).2 [0, 1] [4]
    (rfl : build_embedding_map_search wem wpm 1 = Except.ok ([0, 1], [4]))
    0 (by decide)

/-- C4, counterexample.  `build_embedding_map` performs no injectivity
check: with two coincident embedded vertices the search succeeds and returns
`vertex_map = [0, 0, 1]` and `entity_map = [7, 7]`, both with duplicates. -/
theorem C4_counterexample :
    build_embedding_map_search cx4em cx4pm 1 = .ok ([0, 0, 1], [7, 7]) ∧
    ¬ ([0, 0, 1] : List Nat).Nodup ∧ ¬ ([7, 7] : List Nat).Nodup :=
  ⟨rfl, by decide, by decide⟩

/-- C7.  The trusted-extraction shortcut: under the entry dimension check,
if the embedded mesh carries a stored extraction map and its `parent_id`
equals the parent's identity, `build_embedding_map` returns exactly that
stored map (for *any* geometric data — no search is performed); otherwise it
performs the full geometric search. -/
theorem C7_extraction_shortcut (em : EMesh K) (pm : PMesh K) (tol : K)
    (hdim : em.tdim < pm.tdim) :
    (∀ m, em.entity_map = some m → em.parent_id = some pm.id →
      build_embedding_map em pm tol = .ok m) ∧
    ((em.entity_map = none ∨ em.parent_id ≠ some pm.id) →
      build_embedding_map em pm tol = build_embedding_map_search em pm tol) := by
  constructor
  · intro m h1 h2
    unfold build_embedding_map
    rw [if_pos hdim, h1, h2]
    simp
  · intro hcase
    unfold build_embedding_map
    rw [if_pos hdim]
    cases hm : em.entity_map with
    | none => rfl
    | some m =>
        cases hp : em.parent_id with
        | none => rfl
        | some pid =>
            rcases hcase with hh | hh
            · rw [hm] at hh
              cases hh
            · rw [hp] at hh
              have hne : pid ≠ pm.id := fun he => hh (by rw [he])
              show (if pid = pm.id then Except.ok m
                else build_embedding_map_search em pm tol) =
                build_embedding_map_search em pm tol
              rw [if_neg hne]

/-- C7, witness: the shortcut returns the stored map of `w7em`, and an
embedded mesh without a stored map falls through to the search. -/
theorem C7_extraction_shortcut_witness :
    build_embedding_map w7em wpm 1 = .ok ([5], [6]) ∧
    build_embedding_map wem wpm 1 = build_embedding_map_search wem wpm 1 :=
  ⟨(C7_extraction_shortcut w7em wpm 1 (by decide)).1 ([5], [6]) rfl rfl,
   (C7_extraction_shortcut wem wpm 1 (by decide)).2 (Or.inl rfl)⟩

theorem exbind_ok_red {A B : Type} (a : A) (f : A → Except EmbErr B) :
    (Except.ok a >>= f) = f a := rfl

theorem exbind_err_red {A B : Type} (e : EmbErr) (f : A → Except EmbErr B) :
    ((Except.error e : Except EmbErr A) >>= f) = Except.error e := rfl

/-- The fresh vertex resolution reads only the *head* of the collision list
when choosing the parent vertex: two contexts equal except for their
collision oracles, whose queries agree on the head, resolve the vertex
identically (up to the cached collision tail, which the chosen parent vertex
never depends on). -/
theorem resolveFresh_head_only {C1 C2 : RCtx K} {v : Nat} {x : List K}
    (hex : C1.ex = C2.ex) (hmx : C1.mx = C2.mx) (hc2v : C1.c2v = C2.c2v)
    (hscale : C1.scale = C2.scale) (htol : C1.tol = C2.tol)
    (hx : C1.ex.get? v = some x)
    (hhead : (C1.tree x).get? 0 = (C2.tree x).get? 0) :
    Except.map Prod.fst (resolveFresh C1 v) =
      Except.map Prod.fst (resolveFresh C2 v) := by
  have hx2 : C2.ex.get? v = some x := by rw [← hex]; exact hx
  unfold resolveFresh
  rw [pyGet_ok.mpr hx, pyGet_ok.mpr hx2, exbind_ok_red, exbind_ok_red]
  have hpg : pyGet (C1.tree x) 0 = pyGet (C2.tree x) 0 := by
    unfold pyGet
    rw [hhead]
  rw [hpg]
  cases hc : pyGet (C2.tree x) 0 with
  | error e => rfl
  | ok c0 =>
      rw [exbind_ok_red, exbind_ok_red, hmx, hc2v]
      cases hP : pyMapE (fun w => do
          let wx ← pyGet C2.mx w
          Except.ok (w, distSq x wx)) (C2.c2v c0) with
      | error e => rfl
      | ok pairs =>
          rw [exbind_ok_red, exbind_ok_red]
          cases hM : pyMin pairs with
          | error e => rfl
          | ok best =>
              rw [exbind_ok_red, exbind_ok_red, hscale, htol]
              by_cases hco : coincOK best.2 C2.scale C2.tol
              · rw [if_pos hco, if_pos hco]
                rfl
              · rw [if_neg hco, if_neg hco]

/-- C10.  Non-empty collision precondition: (1) when the first vertex of the
first embedded cell collides with no parent cell, the unguarded `mcells[0]`
access makes the search raise the Python `IndexError` (not a
coincidence-tolerance error); (2) the nearest-parent-vertex search depends
only on the *first* colliding cell: two collision oracles agreeing on the
head of the collision list yield the same resolved parent vertex (and the
same error behaviour), whatever the later colliding cells are. -/
theorem C10_unguarded_first_collision (em : EMesh K) (pm : PMesh K) (tol : K) :
    (∀ v vs cs x s, em.cells = (v :: vs) :: cs →
       em.coordinates.get? v = some x → pm.tree x = [] →
       bboxScale em.coordinates = some s →
       build_embedding_map_search em pm tol = .error .indexError) ∧
    (∀ t1 t2 v x, em.coordinates.get? v = some x →
       (t1 x).get? 0 = (t2 x).get? 0 →
       Except.map Prod.fst (resolveFreshOf em { pm with tree := t1 } tol v) =
       Except.map Prod.fst (resolveFreshOf em { pm with tree := t2 } tol v)) := by
  constructor
  · intro v vs cs x s hcells hx ht hs
    have hvn : v < em.coordinates.length := (List.get?_eq_some.mp hx).1
    have hfresh : resolveFresh (searchCtx em pm tol) v = .error .indexError := by
      unfold resolveFresh
      rw [show pyGet (searchCtx em pm tol).ex v = .ok x from pyGet_ok.mpr hx]
      show pyGet (pm.tree x) 0 >>= _ = _
      rw [ht]
      rfl
    have hrv : ∀ st : RState, st.vmap = List.replicate em.coordinates.length none →
        resolveVertex (searchCtx em pm tol) st v = .error .indexError := by
      intro st hst
      unfold resolveVertex
      have hcached : pyGet st.vmap v = .ok none := by
        rw [pyGet_ok, hst, List.get?_eq_getElem?]
        simp [List.getElem?_replicate, hvn]
      rw [hcached]
      show (Except.ok none >>= _ : Except EmbErr (Nat × List Nat × RState)) = _
      show resolveFresh (searchCtx em pm tol) v >>= _ = _
      rw [hfresh]
      rfl
    unfold build_embedding_map_search
    rw [hs]
    show (processCells (searchCtx em pm tol) em.cells.enum _ >>= _) = _
    rw [hcells]
    show (processCells (searchCtx em pm tol) ((0, v :: vs) :: _) _ >>= _) = _
    unfold processCells processVerts
    rw [hrv _ rfl]
    rfl
  · intro t1 t2 v x hx hhead
    exact resolveFresh_head_only rfl rfl rfl rfl rfl hx hhead

/-- C10, witness: a vertex with an empty collision list makes the search
raise the index error, and the resolved vertex is unchanged when the
collision tail changes. -/
theorem C10_unguarded_first_collision_witness :
    build_embedding_map_search wem10 wpm10 1 = .error .indexError ∧
    Except.map Prod.fst (resolveFreshOf wem { wpm with tree := fun _ => [0] } 1 0) =
      Except.map Prod.fst (resolveFreshOf wem { wpm with tree := fun _ => [0, 99] } 1 0) :=
  ⟨(C10_unguarded_first_collision wem10 wpm10 1).1 0 [] [] [5] 0 rfl rfl rfl rfl,
   (C10_unguarded_first_collision wem wpm 1).2 (fun _ => [0]) (fun _ => [0, 99])
     0 [0] rfl rfl⟩

/-! ## Extraction lemmas -/

theorem resolveMarkers_int (values : List Nat) (ms : List Nat) :
    resolveMarkers values (ms.map Marker.int) = (values, ms) := by
  unfold resolveMarkers
  have hall : (ms.map Marker.int).all markerIsInt = true := by
    rw [List.all_eq_true]
    intro mk hmk
    obtain ⟨m, _, rfl⟩ := List.mem_map.mp hmk
    rfl
  rw [if_pos hall, List.map_map]
  have hcomp : (markerVal ∘ Marker.int) = id := funext fun m => rfl
  rw [hcomp, List.map_id]

theorem addEntity_cellMap (base : BMesh K) (d : Nat) (st : ExtState)
    (m e : Nat) : (addEntity base d st m e).cellMap = st.cellMap ++ [e] := rfl

theorem innerFold_cellMap (base : BMesh K) (d : Nat) (m : Nat) :
    ∀ (es : List Nat) (st : ExtState),
      (es.foldl (fun st e => addEntity base d st m e) st).cellMap =
        st.cellMap ++ es := by
  intro es
  induction es with
  | nil => intro st; simp
  | cons e es ih =>
      intro st
      rw [List.foldl_cons, ih, addEntity_cellMap]
      simp

theorem extractLoop_cellMap (base : BMesh K) (d : Nat) (values : List Nat)
    (markers : List Nat) :
    (extractLoop base d values markers).cellMap =
      (markers.map (subsetEntities values)).flatten := by
  unfold extractLoop
  suffices hgen : ∀ (ms : List Nat) (st : ExtState),
      (ms.foldl (fun st m => (subsetEntities values m).foldl
        (fun st e => addEntity base d st m e) st) st).cellMap =
      st.cellMap ++ (ms.map (subsetEntities values)).flatten by
    rw [hgen]
    rfl
  intro ms
  induction ms with
  | nil => intro st; simp
  | cons m ms ih =>
      intro st
      rw [List.foldl_cons, ih, innerFold_cellMap]
      simp

theorem addEntity_len (base : BMesh K) (d : Nat) (st : ExtState) (m e : Nat)
    (h : st.newCells.length = st.cellMap.length) :
    (addEntity base d st m e).newCells.length =
      (addEntity base d st m e).cellMap.length := by
  show (st.newCells ++ [_]).length = (st.cellMap ++ [e]).length
  simp [h]

theorem extractLoop_len (base : BMesh K) (d : Nat) (values : List Nat)
    (markers : List Nat) :
    (extractLoop base d values markers).newCells.length =
      (extractLoop base d values markers).cellMap.length := by
  unfold extractLoop
  suffices hgen : ∀ (ms : List Nat) (st : ExtState),
      st.newCells.length = st.cellMap.length →
      ((ms.foldl (fun st m => (subsetEntities values m).foldl
        (fun st e => addEntity base d st m e) st) st).newCells.length =
       (ms.foldl (fun st m => (subsetEntities values m).foldl
        (fun st e => addEntity base d st m e) st) st).cellMap.length) by
    exact hgen markers _ rfl
  have hinner : ∀ (m : Nat) (es : List Nat) (st : ExtState),
      st.newCells.length = st.cellMap.length →
      ((es.foldl (fun st e => addEntity base d st m e) st).newCells.length =
       (es.foldl (fun st e => addEntity base d st m e) st).cellMap.length) := by
    intro m es
    induction es with
    | nil => intro st h; exact h
    | cons e es ih =>
        intro st h
        rw [List.foldl_cons]
        exact ih _ (addEntity_len base d st m e h)
  intro ms
  induction ms with
  | nil => intro st h; exact h
  | cons m ms ih =>
      intro st h
      rw [List.foldl_cons]
      exact ih _ (hinner m _ st h)

/-- C5, counterexample.  `EmbeddedMesh` does *not* leave its inputs
unchanged for region-descriptor markers: the constructor itself paints the
marking function (the resolution step happens inside the core, not in an
external collaborator), turning the input array `[0, 0]` into `[0, 1]`. -/
theorem C5_counterexample :
    Except.map (fun p => p.2) (EmbeddedMesh exBase [0, 0] 1
      [Marker.region (fun e => e == 1)]) = .ok [0, 1] ∧
    ([0, 1] : List Nat) ≠ [0, 0] :=
  ⟨rfl, by decide⟩

/-- C5, amended.  With all-integer markers the constructor is pure: the
marking-function array after construction equals the input array (painting
happens only for region-descriptor markers, which mutate the input). -/
theorem C5_unchanged_on_int_markers {base : BMesh K} {mf : List Nat}
    {d : Nat} {ms : List Nat} {r : ExtResult K} {vals : List Nat}
    (h : EmbeddedMesh base mf d (ms.map Marker.int) = .ok (r, vals)) :
    vals = mf := by
  unfold EmbeddedMesh at h
  rw [resolveMarkers_int] at h
  split at h
  · split at h
    · cases h
    · split at h
      · cases h
      · split at h
        · cases h
          rfl
        · cases h
          rfl
  · cases h

/-- C5, witness: an all-integer extraction leaves the marking array
`[1, 2]` unchanged. -/
theorem C5_unchanged_witness : ([1, 2] : List Nat) = [1, 2] :=
  @C5_unchanged_on_int_markers ℤ _ exBase [1, 2] 1 [1, 2] exRes12 [1, 2]
    (rfl : EmbeddedMesh exBase [1, 2] 1 (([1, 2] : List Nat).map Marker.int) =
      .ok (exRes12, [1, 2]))

/-- C6, counterexample.  Markers are iterated in the caller's listed order,
not in increasing numeric order: listing `[2, 1]` assigns the first new cell
and the first new vertices to marker 2's entity (maps `[1,2,0]`/`[1,0]`),
whereas listing `[1, 2]` gives `[0,1,2]`/`[0,1]` — so the assignment is not
independent of the listing order, and for the listing `[2, 1]` it is not in
increasing marker order. -/
theorem C6_counterexample :
    Except.map (fun p => (p.1.vmap, p.1.emap))
      (EmbeddedMesh exBase [1, 2] 1 [Marker.int 2, Marker.int 1]) =
      .ok ([1, 2, 0], [1, 0]) ∧
    Except.map (fun p => (p.1.vmap, p.1.emap))
      (EmbeddedMesh exBase [1, 2] 1 [Marker.int 1, Marker.int 2]) =
      .ok ([0, 1, 2], [0, 1]) ∧
    ([1, 0] : List Nat) ≠ [0, 1] :=
  ⟨rfl, rfl, by decide⟩

/-- C6, amended.  In the general extraction case (`d` strictly below the
parent topological dimension) new cells are created by processing the
markers in the order the caller listed them, each marker contributing its
marked entities in increasing entity order: the resulting `entity_map` is
the concatenation, in listed-marker order, of the per-marker entity
subsets. -/
theorem C6_listing_order {base : BMesh K} {mf : List Nat} {d : Nat}
    {ms : List Nat} {r : ExtResult K} {vals : List Nat}
    (hd : d < base.tdim)
    (h : EmbeddedMesh base mf d (ms.map Marker.int) = .ok (r, vals)) :
    r.emap = (ms.map (subsetEntities mf)).flatten := by
  unfold EmbeddedMesh at h
  rw [resolveMarkers_int] at h
  split at h
  · split at h
    · cases h
    · split at h
      · cases h
      · split at h
        · rename_i hvol
          exact absurd hvol (by omega)
        · cases h
          show (extractLoop base d mf ms).cellMap = _
          exact extractLoop_cellMap base d mf ms
  · cases h

/-- C6, witness: the `[2, 1]` listing produces exactly the concatenation of
marker 2's and then marker 1's entity subsets. -/
theorem C6_listing_witness :
    exRes21.emap = (([2, 1] : List Nat).map (subsetEntities [1, 2])).flatten :=
  @C6_listing_order ℤ _ exBase [1, 2] 1 [2, 1] exRes21 [1, 2] (by decide)
    (rfl : EmbeddedMesh exBase [1, 2] 1 (([2, 1] : List Nat).map Marker.int) =
      .ok (exRes21, [1, 2]))

/-- C9.  Single-marker shortcut: extracting with exactly one (integer)
marker yields a marking function that is uniformly that marker on every new
cell (`set_all`), in both the volumetric and the general path. -/
theorem C9_single_marker {base : BMesh K} {mf : List Nat} {d m : Nat}
    {r : ExtResult K} {vals : List Nat}
    (h : EmbeddedMesh base mf d [Marker.int m] = .ok (r, vals)) :
    r.marking = List.replicate r.emap.length m := by
  have hms : [Marker.int m] = ([m] : List Nat).map Marker.int := rfl
  rw [hms] at h
  unfold EmbeddedMesh at h
  rw [resolveMarkers_int] at h
  split at h
  · split at h
    · cases h
    · split at h
      · cases h
      · split at h
        · cases h
          rfl
        · cases h
          show (generalExtract base d mf [m]).marking =
            List.replicate (extractLoop base d mf [m]).cellMap.length m
          rw [← extractLoop_len base d mf [m]]
          rfl
  · cases h

/-- C9, witness: extracting `exBase` with the single marker 2 marks every
new cell 2. -/
theorem C9_single_marker_witness :
    exRes2.marking = List.replicate exRes2.emap.length 2 :=
  @C9_single_marker ℤ _ exBase [1, 2] 1 2 exRes2 [1, 2]
    (rfl : EmbeddedMesh exBase [1, 2] 1 [Marker.int 2] = .ok (exRes2, [1, 2]))

theorem registerVertex_nodup {nv : List Nat} {v : Nat} (h : nv.Nodup) :
    ((registerVertex nv v).2).Nodup := by
  unfold registerVertex
  cases hf : nv.findIdx? (fun w => w = v) with
  | some i => exact h
  | none =>
      have hv : v ∉ nv := by
        intro hmem
        have := List.findIdx?_eq_none_iff.mp hf v hmem
        simp at this
      rw [List.nodup_append]
      exact ⟨h, List.nodup_singleton v, by
        intro a ha hb
        rw [List.mem_singleton] at hb
        rw [hb] at ha
        exact hv ha⟩

theorem regFold_nodup : ∀ (vs : List Nat) (acc : List Nat × List Nat),
    acc.2.Nodup → ((vs.foldl regStep acc).2).Nodup := by
  intro vs
  induction vs with
  | nil => intro acc h; exact h
  | cons v vs ih =>
      intro acc h
      rw [List.foldl_cons]
      exact ih _ (registerVertex_nodup h)

theorem addEntity_nv_nodup {base : BMesh K} {d : Nat} {st : ExtState}
    {m e : Nat} (h : st.newVertices.Nodup) :
    (addEntity base d st m e).newVertices.Nodup :=
  regFold_nodup _ _ h

theorem extractLoop_nv_nodup (base : BMesh K) (d : Nat) (values : List Nat)
    (markers : List Nat) :
    (extractLoop base d values markers).newVertices.Nodup := by
  unfold extractLoop
  suffices hgen : ∀ (ms : List Nat) (st : ExtState), st.newVertices.Nodup →
      ((ms.foldl (fun st m => (subsetEntities values m).foldl
        (fun st e => addEntity base d st m e) st) st).newVertices.Nodup) by
    exact hgen markers _ (List.nodup_nil)
  have hinner : ∀ (m : Nat) (es : List Nat) (st : ExtState),
      st.newVertices.Nodup →
      ((es.foldl (fun st e => addEntity base d st m e) st).newVertices.Nodup) := by
    intro m es
    induction es with
    | nil => intro st h; exact h
    | cons e es ih =>
        intro st h
        rw [List.foldl_cons]
        exact ih _ (addEntity_nv_nodup h)
  intro ms
  induction ms with
  | nil => intro st h; exact h
  | cons m ms ih =>
      intro st h
      rw [List.foldl_cons]
      exact ih _ (hinner m _ st h)

theorem mem_subsetEntities {values : List Nat} {m e : Nat} :
    e ∈ subsetEntities values m ↔ e < values.length ∧ values.getD e 0 = m := by
  unfold subsetEntities
  rw [List.mem_filter, List.mem_range]
  simp

theorem subsets_flatten_nodup (values : List Nat) {ms : List Nat}
    (h : ms.Nodup) : ((ms.map (subsetEntities values)).flatten).Nodup := by
  rw [List.nodup_flatten]
  constructor
  · intro l hl
    obtain ⟨m, _, rfl⟩ := List.mem_map.mp hl
    exact (List.nodup_range _).filter _
  · rw [List.pairwise_map]
    refine h.imp ?_
    intro a b hab e hea heb
    rw [mem_subsetEntities] at hea heb
    exact hab (hea.2 ▸ heb.2)

/-- C4, amended.  Extraction-produced maps are injective: with pairwise
distinct integer markers, both the volumetric and the general extraction
path produce a `vertex_map` and an `entity_map` without duplicates.  (The
resolver `build_embedding_map` enforces no such property, as its
counterexample shows.) -/
theorem C4_extraction_injective {base : BMesh K} {mf : List Nat} {d : Nat}
    {ms : List Nat} {r : ExtResult K} {vals : List Nat}
    (hnd : ms.Nodup)
    (h : EmbeddedMesh base mf d (ms.map Marker.int) = .ok (r, vals)) :
    r.vmap.Nodup ∧ r.emap.Nodup := by
  unfold EmbeddedMesh at h
  rw [resolveMarkers_int] at h
  split at h
  · split at h
    · cases h
    · split at h
      · cases h
      · split at h
        · cases h
          constructor
          · show (((_ : List (List Nat)).flatten.insertionSort (· ≤ ·)).dedup).Nodup
            exact List.nodup_dedup _
          · show ((List.range mf.length).filter _).Nodup
            exact (List.nodup_range _).filter _
        · cases h
          constructor
          · exact extractLoop_nv_nodup base d mf ms
          · show (extractLoop base d mf ms).cellMap.Nodup
            rw [extractLoop_cellMap]
            exact subsets_flatten_nodup mf hnd
  · cases h

/-- C4, witness for the amended theorem: the two-marker extraction of
`exBase` yields duplicate-free maps. -/
theorem C4_extraction_injective_witness :
    exRes12.vmap.Nodup ∧ exRes12.emap.Nodup :=
  @C4_extraction_injective ℤ _ exBase [1, 2] 1 [1, 2] exRes12 [1, 2]
    (by decide)
    (rfl : EmbeddedMesh exBase [1, 2] 1 (([1, 2] : List Nat).map Marker.int) =
      .ok (exRes12, [1, 2]))

theorem setFold_length {m : Nat} : ∀ (ks : List Nat) (f : List Nat),
    (ks.foldl (fun f i => f.set i m) f).length = f.length := by
  intro ks
  induction ks with
  | nil => intro f; rfl
  | cons j ks ih =>
      intro f
      rw [List.foldl_cons, ih, List.length_set]

theorem setFold_not_mem {m k : Nat} : ∀ (ks : List Nat) (f : List Nat),
    k ∉ ks → (ks.foldl (fun f i => f.set i m) f).get? k = f.get? k := by
  intro ks
  induction ks with
  | nil => intro f _; rfl
  | cons j ks ih =>
      intro f hk
      rw [List.foldl_cons, ih _ (fun hh => hk (List.mem_cons_of_mem _ hh)),
        get?_set_other (fun hh => hk (by rw [← hh]; exact List.mem_cons_self _ _))]

theorem setFold_preserve {m k : Nat} : ∀ (ks : List Nat) (f : List Nat),
    f.get? k = some m → (ks.foldl (fun f i => f.set i m) f).get? k = some m := by
  intro ks
  induction ks with
  | nil => intro f h; exact h
  | cons j ks ih =>
      intro f h
      rw [List.foldl_cons]
      refine ih _ ?_
      by_cases hj : j = k
      · rw [hj]
        exact get?_set_self (List.get?_eq_some.mp h).1
      · rw [get?_set_other hj]
        exact h

theorem setFold_mem {m k : Nat} : ∀ (ks : List Nat) (f : List Nat),
    k ∈ ks → k < f.length →
    (ks.foldl (fun f i => f.set i m) f).get? k = some m := by
  intro ks
  induction ks with
  | nil =>
      intro f hk
      cases hk
  | cons j ks ih =>
      intro f hk hlt
      rw [List.foldl_cons]
      by_cases hj : j = k
      · refine setFold_preserve ks _ ?_
        rw [hj]
        exact get?_set_self hlt
      · rcases List.mem_cons.mp hk with hh | hh
        · exact absurd hh.symm hj
        · exact ih _ hh (by rw [List.length_set]; exact hlt)

theorem colorsToMarking_not_mem {k : Nat} :
    ∀ (colors : List (Nat × List Nat)) (f : List Nat),
      (∀ p ∈ colors, k ∉ p.2) →
      (colorsToMarking colors f).get? k = f.get? k := by
  intro colors
  induction colors with
  | nil => intro f _; rfl
  | cons p rest ih =>
      intro f hall
      show (colorsToMarking rest (p.2.foldl (fun f i => f.set i p.1) f)).get? k =
        f.get? k
      rw [ih _ (fun q hq => hall q (List.mem_cons_of_mem _ hq)),
        setFold_not_mem _ _ (hall p (List.mem_cons_self _ _))]

theorem colorsToMarking_mem {k m : Nat} :
    ∀ (colors : List (Nat × List Nat)) (f : List Nat),
      (∃ p ∈ colors, k ∈ p.2 ∧ p.1 = m) →
      List.Pairwise (fun p q => ∀ j ∈ p.2, j ∉ q.2) colors →
      k < f.length →
      (colorsToMarking colors f).get? k = some m := by
  intro colors
  induction colors with
  | nil =>
      intro f hex
      obtain ⟨p, hp, _⟩ := hex
      cases hp
  | cons p0 rest ih =>
      intro f hex hpw hlt
      rw [List.pairwise_cons] at hpw
      obtain ⟨hhead, htail⟩ := hpw
      show (colorsToMarking rest (p0.2.foldl (fun f i => f.set i p0.1) f)).get? k =
        some m
      by_cases hk0 : k ∈ p0.2
      · have hm0 : p0.1 = m := by
          obtain ⟨p, hp, hkp, hpm⟩ := hex
          rcases List.mem_cons.mp hp with hh | hh
          · rw [← hh]
            exact hpm
          · exact absurd hkp (hhead p hh k hk0)
        rw [colorsToMarking_not_mem rest _ (fun q hq => hhead q hq k hk0),
          setFold_mem _ _ hk0 hlt, hm0]
      · obtain ⟨p, hp, hkp, hpm⟩ := hex
        rcases List.mem_cons.mp hp with hh | hh
        · rw [hh] at hkp
          exact absurd hkp hk0
        · exact ih _ ⟨p, hh, hkp, hpm⟩ htail
            (by rw [setFold_length]; exact hlt)

theorem colorAdd_mem : ∀ (colors : List (Nat × List Nat)) (m k : Nat)
    (p : Nat × List Nat), p ∈ colorAdd colors m k →
    ∀ j ∈ p.2, (∃ q ∈ colors, j ∈ q.2 ∧ q.1 = p.1) ∨ (j = k ∧ p.1 = m) := by
  intro colors
  induction colors with
  | nil =>
      intro m k p hp j hj
      rw [show colorAdd [] m k = [(m, [k])] from rfl, List.mem_singleton] at hp
      rw [hp] at hj ⊢
      right
      exact ⟨List.mem_singleton.mp hj, rfl⟩
  | cons q0 rest ih =>
      intro m k p hp j hj
      unfold colorAdd at hp
      by_cases hk : q0.1 = m
      · rw [if_pos hk] at hp
        rcases List.mem_cons.mp hp with hh | hh
        · rw [hh] at hj ⊢
          rcases List.mem_append.mp hj with hj2 | hj2
          · left
            exact ⟨q0, List.mem_cons_self _ _, hj2, rfl⟩
          · right
            exact ⟨List.mem_singleton.mp hj2, hk⟩
        · left
          exact ⟨p, List.mem_cons_of_mem _ hh, hj, rfl⟩
      · rw [if_neg hk] at hp
        rcases List.mem_cons.mp hp with hh | hh
        · rw [hh] at hj ⊢
          left
          exact ⟨q0, List.mem_cons_self _ _, hj, rfl⟩
        · rcases ih m k p hh j hj with ⟨q, hq, hjq, hq1⟩ | hh2
          · left
            exact ⟨q, List.mem_cons_of_mem _ hq, hjq, hq1⟩
          · right
            exact hh2

theorem colorAdd_cover : ∀ (colors : List (Nat × List Nat)) (m k : Nat)
    {j : Nat} {q : Nat × List Nat}, q ∈ colors → j ∈ q.2 →
    ∃ q2 ∈ colorAdd colors m k, j ∈ q2.2 := by
  intro colors
  induction colors with
  | nil =>
      intro m k j q hq
      cases hq
  | cons q0 rest ih =>
      intro m k j q hq hj
      unfold colorAdd
      by_cases hk : q0.1 = m
      · rw [if_pos hk]
        rcases List.mem_cons.mp hq with hh | hh
        · rw [hh] at hj
          exact ⟨(q0.1, q0.2 ++ [k]), List.mem_cons_self _ _,
            List.mem_append.mpr (Or.inl hj)⟩
        · exact ⟨q, List.mem_cons_of_mem _ hh, hj⟩
      · rw [if_neg hk]
        rcases List.mem_cons.mp hq with hh | hh
        · rw [hh] at hj
          exact ⟨q0, List.mem_cons_self _ _, hj⟩
        · obtain ⟨q2, hq2, hjq2⟩ := ih m k hh hj
          exact ⟨q2, List.mem_cons_of_mem _ hq2, hjq2⟩

theorem colorAdd_self : ∀ (colors : List (Nat × List Nat)) (m k : Nat),
    ∃ q ∈ colorAdd colors m k, k ∈ q.2 := by
  intro colors
  induction colors with
  | nil =>
      intro m k
      exact ⟨(m, [k]), List.mem_singleton.mpr rfl, List.mem_singleton.mpr rfl⟩
  | cons q0 rest ih =>
      intro m k
      unfold colorAdd
      by_cases hk : q0.1 = m
      · rw [if_pos hk]
        exact ⟨(q0.1, q0.2 ++ [k]), List.mem_cons_self _ _,
          List.mem_append.mpr (Or.inr (List.mem_singleton.mpr rfl))⟩
      · rw [if_neg hk]
        obtain ⟨q, hq, hkq⟩ := ih m k
        exact ⟨q, List.mem_cons_of_mem _ hq, hkq⟩

theorem colorAdd_pairwise : ∀ (colors : List (Nat × List Nat)) (m k : Nat),
    List.Pairwise (fun p q => ∀ j ∈ p.2, j ∉ q.2) colors →
    (∀ p ∈ colors, k ∉ p.2) →
    List.Pairwise (fun p q => ∀ j ∈ p.2, j ∉ q.2) (colorAdd colors m k) := by
  intro colors
  induction colors with
  | nil =>
      intro m k _ _
      exact List.pairwise_singleton _ _
  | cons q0 rest ih =>
      intro m k hpw hfresh
      rw [List.pairwise_cons] at hpw
      obtain ⟨hhead, htail⟩ := hpw
      unfold colorAdd
      by_cases hk : q0.1 = m
      · rw [if_pos hk, List.pairwise_cons]
        constructor
        · intro q hq j hj
          rcases List.mem_append.mp hj with hj2 | hj2
          · exact hhead q hq j hj2
          · rw [List.mem_singleton] at hj2
            rw [hj2]
            exact hfresh q (List.mem_cons_of_mem _ hq)
        · exact htail
      · rw [if_neg hk, List.pairwise_cons]
        constructor
        · intro q hq j hj hjq
          rcases colorAdd_mem rest m k q hq j hjq with ⟨q2, hq2, hjq2, _⟩ | ⟨hjk, _⟩
          · exact hhead q2 hq2 j hj hjq2
          · rw [hjk] at hj
            exact hfresh q0 (List.mem_cons_self _ _) hj
        · exact ih m k htail (fun p hp => hfresh p (List.mem_cons_of_mem _ hp))

theorem addEntity_ColorsInv {base : BMesh K} {d : Nat} {values : List Nat}
    {st : ExtState} {m e : Nat} (hC : ColorsInv values st)
    (hval : values.getD e 0 = m) :
    ColorsInv values (addEntity base d st m e) := by
  obtain ⟨ha, hb, hc, hd2⟩ := hC
  refine ⟨?_, ?_, ?_, ?_⟩
  · intro p hp j hj
    rcases colorAdd_mem st.cellColors m st.newCells.length p hp j hj with
      ⟨q, hq, hjq, hq1⟩ | ⟨hjk, hp1⟩
    · obtain ⟨hlt, e', he', hve'⟩ := ha q hq j hjq
      refine ⟨?_, e', ?_, by rw [hve', hq1]⟩
      · show j < (st.newCells ++ [_]).length
        rw [List.length_append, List.length_singleton]
        omega
      · show (st.cellMap ++ [e]).get? j = some e'
        rw [List.get?_append (by rw [← hd2]; exact hlt)]
        exact he'
    · refine ⟨?_, e, ?_, by rw [hval, hp1]⟩
      · rw [hjk]
        show st.newCells.length < (st.newCells ++ [_]).length
        rw [List.length_append, List.length_singleton]
        omega
      · rw [hjk]
        show (st.cellMap ++ [e]).get? st.newCells.length = some e
        rw [hd2]
        exact List.get?_concat_length _ _
  · intro k hk
    have hk' : k < st.newCells.length + 1 := by
      have hk2 : k < (st.newCells ++ [_]).length := hk
      rw [List.length_append, List.length_singleton] at hk2
      exact hk2
    by_cases hke : k < st.newCells.length
    · obtain ⟨q, hq, hkq⟩ := hb k hke
      exact colorAdd_cover st.cellColors m st.newCells.length hq hkq
    · have hkk : k = st.newCells.length := by omega
      rw [hkk]
      exact colorAdd_self st.cellColors m st.newCells.length
  · refine colorAdd_pairwise st.cellColors m st.newCells.length hc ?_
    intro p hp hkp
    obtain ⟨hlt, _⟩ := ha p hp _ hkp
    omega
  · show (st.newCells ++ [_]).length = (st.cellMap ++ [e]).length
    rw [List.length_append, List.length_append, hd2, List.length_singleton,
      List.length_singleton]

theorem extractLoop_ColorsInv (base : BMesh K) (d : Nat) (values : List Nat)
    (markers : List Nat) :
    ColorsInv values (extractLoop base d values markers) := by
  unfold extractLoop
  suffices hgen : ∀ (ms : List Nat) (st : ExtState), ColorsInv values st →
      ColorsInv values (ms.foldl (fun st m => (subsetEntities values m).foldl
        (fun st e => addEntity base d st m e) st) st) by
    refine hgen markers _ ⟨fun p hp => absurd hp (List.not_mem_nil _),
      fun k hk => absurd hk (by simp), List.Pairwise.nil, rfl⟩
  have hinner : ∀ (m : Nat) (es : List Nat),
      (∀ e2 ∈ es, values.getD e2 0 = m) → ∀ (st : ExtState),
      ColorsInv values st →
      ColorsInv values (es.foldl (fun st e => addEntity base d st m e) st) := by
    intro m es
    induction es with
    | nil => intro _ st h; exact h
    | cons e2 es ih =>
        intro hall st h
        rw [List.foldl_cons]
        exact ih (fun x hx => hall x (List.mem_cons_of_mem _ hx)) _
          (addEntity_ColorsInv h (hall e2 (List.mem_cons_self _ _)))
  intro ms
  induction ms with
  | nil => intro st h; exact h
  | cons m ms ih =>
      intro st h
      rw [List.foldl_cons]
      refine ih _ (hinner m (subsetEntities values m) ?_ st h)
      intro e2 he2
      exact (mem_subsetEntities.mp he2).2

theorem volumetric_marking {base : BMesh K} {values ms : List Nat}
    (hlen : 1 < ms.length) :
    ∀ i e, (volumetricExtract base values ms).emap.get? i = some e →
      (volumetricExtract base values ms).marking.get? i =
        some (values.getD e 0) := by
  intro i e he
  have he2 : ((List.range values.length).filter
      (fun c => ms.contains (values.getD c 0))).get? i = some e := he
  have hmem : e ∈ (List.range values.length).filter
      (fun c => ms.contains (values.getD c 0)) := List.get?_mem he2
  have hcontains : ms.contains (values.getD e 0) := (List.mem_filter.mp hmem).2
  have hmem2 : values.getD e 0 ∈ ms := List.elem_iff.mp hcontains
  have hsome : (ms.find? (fun m => values.getD e 0 = m)).isSome :=
    List.find?_isSome.mpr ⟨values.getD e 0, hmem2, by simp⟩
  obtain ⟨m0, hm0⟩ := Option.isSome_iff_exists.mp hsome
  have hm0v : values.getD e 0 = m0 := by
    simpa using List.find?_some hm0
  simp only [volumetricExtract]
  rw [if_pos hlen, List.get?_map, he2, Option.map_some']
  refine congrArg some ?_
  rw [hm0]
  exact hm0v.symm

theorem general_marking {base : BMesh K} {d : Nat} {values ms : List Nat}
    (hlen : 1 < ms.length) :
    ∀ i e, (generalExtract base d values ms).emap.get? i = some e →
      (generalExtract base d values ms).marking.get? i =
        some (values.getD e 0) := by
  intro i e he
  obtain ⟨ha, hb, hc, hd2⟩ := extractLoop_ColorsInv base d values ms
  have he2 : (extractLoop base d values ms).cellMap.get? i = some e := he
  have hilt : i < (extractLoop base d values ms).cellMap.length :=
    (List.get?_eq_some.mp he2).1
  have hiltc : i < (extractLoop base d values ms).newCells.length := by
    rw [hd2]
    exact hilt
  obtain ⟨p, hp, hip⟩ := hb i hiltc
  obtain ⟨_, e', he', hve'⟩ := ha p hp i hip
  have hee : e' = e := Option.some.inj (he'.symm.trans he2)
  simp only [generalExtract]
  rw [if_pos hlen]
  exact colorsToMarking_mem _ _ ⟨p, hp, hip, by rw [← hve', hee]⟩ hc
    (by rw [List.length_replicate]; exact hiltc)

/-- C8.  Multi-marker recolouring: for every extraction with more than one
(integer) marker, in both the volumetric and the general path, the inherited
marking function assigns to each new cell exactly the label its originating
parent entity/cell carries in the marking-function array. -/
theorem C8_multi_marker_recoloring {base : BMesh K} {mf : List Nat} {d : Nat}
    {ms : List Nat} {r : ExtResult K} {vals : List Nat}
    (hlen : 1 < ms.length)
    (h : EmbeddedMesh base mf d (ms.map Marker.int) = .ok (r, vals)) :
    ∀ i e, r.emap.get? i = some e → r.marking.get? i = some (mf.getD e 0) := by
  unfold EmbeddedMesh at h
  rw [resolveMarkers_int] at h
  split at h
  · split at h
    · cases h
    · split at h
      · cases h
      · split at h
        · cases h
          exact volumetric_marking hlen
        · cases h
          exact general_marking hlen
  · cases h

/-- C8, witness: in the two-marker extraction of `exBase`, new cell 0
recovers the label of its originating entity 0. -/
theorem C8_multi_marker_recoloring_witness :
    exRes12.marking.get? 0 = some (([1, 2] : List Nat).getD 0 0) :=
  @C8_multi_marker_recoloring ℤ _ exBase [1, 2] 1 [1, 2] exRes12 [1, 2]
    (by decide)
    (rfl : EmbeddedMesh exBase [1, 2] 1 (([1, 2] : List Nat).map Marker.int) =
      .ok (exRes12, [1, 2])) 0 0 rfl

end EmbeddedMeshVerif
